import Mathlib

/-!
Verification development for the OpenTable availability-extraction engine
(an in-page script that turns rendered reservation-slot text and visibility
flags into structured availability records).

The JavaScript source is shallowly embedded:
* clock times are the `HH:mm:ss` strings the code manipulates, with the
  code's lexicographic string comparison modelled character by character;
* calendar dates are epoch-day integers (the `YYYY-MM-DD` strings the code
  compares lexicographically order exactly like their day numbers, and
  `new Date(date + "T" + time + "Z").getTime()` is day * 86400000 + time-of-day
  milliseconds);
* loops are modelled by fuel-indexed structural recursion, so every
  definition is executable; a fuel bound large enough for the modelled
  domain is supplied at each call site and fuel exhaustion yields `none`;
* the places where the JavaScript would throw (e.g. `toISOString` on an
  invalid `Date`) are modelled by an `Option` result, `none` meaning the
  extraction dies with an exception.
-/

namespace NaviBench

/-! ### Characters, digit strings, JS string comparison -/

/-- The decimal digit character for `d ≤ 9`. -/
def digitChar (d : Nat) : Char :=
  match d with
  | 0 => '0' | 1 => '1' | 2 => '2' | 3 => '3' | 4 => '4'
  | 5 => '5' | 6 => '6' | 7 => '7' | 8 => '8' | _ => '9'

def isDigitCh (c : Char) : Bool := 48 ≤ c.toNat && c.toNat ≤ 57

def digitVal (c : Char) : Nat := c.toNat - 48

/-- Decimal digits of `n`, most significant first (fuel-indexed; fuel `n+1`
suffices).  Models JavaScript `Number.prototype.toString` on naturals. -/
def natCharsF : Nat → Nat → List Char
  | 0, _ => []
  | _fuel+1, n =>
    if n < 10 then [digitChar n]
    else natCharsF _fuel (n / 10) ++ [digitChar (n % 10)]

def natChars (n : Nat) : List Char := natCharsF (n + 1) n

/-- Models `n.toString().padStart(2, "0")`. -/
def pad2 (n : Nat) : String :=
  ⟨List.replicate (2 - (natChars n).length) '0' ++ natChars n⟩

/-- Renders the `${hours}:${minutes}:${seconds}` time string built by the
source via `padStart(2, "0")` on each component. -/
def timeStr (h m s : Nat) : String := pad2 h ++ ":" ++ pad2 m ++ ":" ++ pad2 s

/-- JavaScript `<` on strings: lexicographic comparison by code unit. -/
def chLtAux : List Char → List Char → Bool
  | [], [] => false
  | [], _ :: _ => true
  | _ :: _, [] => false
  | a :: as, b :: bs =>
    if a.toNat < b.toNat then true
    else if b.toNat < a.toNat then false
    else chLtAux as bs

def jsLt (s t : String) : Bool := chLtAux s.data t.data

/-- JavaScript `<=` on strings (total order: `s <= t ↔ ¬ t < s`). -/
def jsLe (s t : String) : Bool := !(jsLt t s)

/-- `leadEq pat l`: `pat` is an initial segment of `l`. -/
def leadEq : List Char → List Char → Bool
  | [], _ => true
  | _ :: _, [] => false
  | a :: as, b :: bs => a == b && leadEq as bs

/-- Models JavaScript `String.prototype.includes`. -/
def containsSub (pat : List Char) : List Char → Bool
  | [] => leadEq pat []
  | c :: rest => leadEq pat (c :: rest) || containsSub pat rest

/-- Splits a character list at `':'` (models `String.prototype.split(":")`). -/
def splitColon : List Char → List (List Char)
  | [] => [[]]
  | c :: rest =>
    if c = ':' then [] :: splitColon rest
    else
      match splitColon rest with
      | g :: gs => (c :: g) :: gs
      | [] => [[c]]

/-- Value of a decimal digit string (models JavaScript `Number(...)` on the
all-digit strings arising in the modelled domain). -/
def digitsToNat (l : List Char) : Nat := l.foldl (fun acc c => 10 * acc + digitVal c) 0

/-! ### TemporalTextParser: `parseTimes` -/

/-- Attempts to match the regex tail `:(\d{2}) ([APap][Mm])` at the head of
the list; on success returns the minutes, whether the marker is PM, and the
remaining characters after the match. -/
def matchTail : List Char → Option (Nat × Bool × List Char)
  | ':' :: d1 :: d2 :: ' ' :: ap :: mm :: rest =>
    if isDigitCh d1 && isDigitCh d2 &&
        (ap == 'A' || ap == 'P' || ap == 'a' || ap == 'p') && (mm == 'M' || mm == 'm') then
      some (10 * digitVal d1 + digitVal d2, (ap == 'P' || ap == 'p'), rest)
    else none
  | _ => none

/-- All matches of `/(\d{1,2}):(\d{2}) ([APap][Mm])/g` in order of
appearance, as the JavaScript regex engine finds them: at each position the
greedy `\d{1,2}` first tries two digits, then one; on failure the scan
advances one character; on success it resumes after the match.  Each match
is returned as `(hour field, minute field, is PM)`.  Fuel-indexed; fuel of
the list's length suffices since every step consumes at least one
character. -/
def findMatchesF : Nat → List Char → List (Nat × Nat × Bool)
  | 0, _ => []
  | _, [] => []
  | fuel+1, c :: cs =>
    if isDigitCh c then
      match cs with
      | c2 :: cs2 =>
        if isDigitCh c2 then
          match matchTail cs2 with
          | some (mn, pm, rest) => (10 * digitVal c + digitVal c2, mn, pm) :: findMatchesF fuel rest
          | none =>
            match matchTail cs with
            | some (mn, pm, rest) => (digitVal c, mn, pm) :: findMatchesF fuel rest
            | none => findMatchesF fuel cs
        else
          match matchTail cs with
          | some (mn, pm, rest) => (digitVal c, mn, pm) :: findMatchesF fuel rest
          | none => findMatchesF fuel cs
      | [] => []
    else findMatchesF fuel cs

def findMatches (l : List Char) : List (Nat × Nat × Bool) := findMatchesF l.length l

/-- The 12-hour → 24-hour conversion exactly as the source writes it:
`if (pm && hours !== 12) hours += 12; else if (am && hours === 12) hours = 0;`
then zero-padded rendering with seconds 0. -/
def to24 (h12 mn : Nat) (pm : Bool) : String :=
  let hours := if pm && !(h12 == 12) then h12 + 12
    else if !pm && h12 == 12 then 0
    else h12
  timeStr hours mn 0

/-- `parseTimes`: extracts every `h:mm AM/PM` occurrence in order of
appearance and converts each to a 24-hour `HH:mm:ss` string. -/
def parseTimes (text : String) : List String :=
  (findMatches text.data).map (fun r => to24 r.1 r.2.1 r.2.2)

/-- Modelled from the spec's words (for comparison with `to24`): "each
converted to a 24-hour `HH:mm:ss` string (12 AM mapping to hour 00, 12 PM to
hour 12, with zero-padded hours and minutes and seconds 00)". -/
def to24Spec (h12 mn : Nat) (pm : Bool) : String :=
  let hours := if pm then (if h12 == 12 then 12 else h12 + 12)
    else (if h12 == 12 then 0 else h12)
  timeStr hours mn 0

/-- Modelled from the spec's words: the list of all matched occurrences, in
order of appearance, each converted by the spec's 24-hour rule. -/
def parseTimesSpec (text : String) : List String :=
  (findMatches text.data).map (fun r => to24Spec r.1 r.2.1 r.2.2)

/-! ### TimeArithmetic -/

/-- `getNextTime(time, deltaMinutes)`: splits `HH:mm:ss` at `":"`, adds the
minutes with carry into the hour — deliberately without reducing the hour
modulo 24 — and re-renders with `padStart(2, "0")`.  Inputs that do not
split into three components would produce `NaN` fields in JavaScript and
are outside the modelled domain (we return `""` there). -/
def getNextTime (time : String) (deltaMinutes : Nat) : String :=
  match splitColon time.data with
  | [hs, ms, ss] =>
    timeStr (digitsToNat hs + (digitsToNat ms + deltaMinutes) / 60)
      ((digitsToNat ms + deltaMinutes) % 60) (digitsToNat ss)
  | _ => ""

inductive Availability
  | available
  | unavailable
deriving DecidableEq

/-- One `{date, time, availability}` record.  The date is the epoch-day
number denoted by the `YYYY-MM-DD` string and the time the milliseconds
within the day denoted by the `HH:mm:ss` part, as produced by
`timestampToDateAndTime` (`toISOString` splits the timestamp at UTC
midnight: day = ts fdiv 86400000, time-of-day = ts mod 86400000). -/
structure Obs where
  date : Int
  time : Int
  availability : Availability
deriving DecidableEq

def msPerDay : Int := 86400000

/-- `timestampToDateAndTime` followed by the record push: the timestamp is
split into its UTC date and time-of-day. -/
def mkObs (av : Availability) (ts : Int) : Obs :=
  { date := ts / msPerDay, time := ts % msPerDay, availability := av }

/-- Strict chronological order on `(date, time)` — the lexicographic order
the `YYYY-MM-DD` and `HH:mm:ss` strings carry. -/
def obsLt (x y : Obs) : Prop :=
  x.date < y.date ∨ (x.date = y.date ∧ x.time < y.time)

instance (x y : Obs) : Decidable (obsLt x y) := by
  unfold obsLt; infer_instance

/-! ### GridInferenceEngine: `parseTimesAndAvailabilities` -/

/-- The early return `timesArray.length === 0 || !timesArray.some(t => t !== "")`. -/
def blankGuard (arr : List String) : Bool :=
  arr.isEmpty || !(arr.any (fun t => t != ""))

/-- `timesArray.some(time => time.includes(":15") || time.includes(":45"))`. -/
def quarterLbl (arr : List String) : Bool :=
  arr.any (fun t => containsSub ":15".data t.data || containsSub ":45".data t.data)

/-- The `HH:mm:ss` components of a `parseTimes` output string. -/
def parseClock (t : String) : Option (Nat × Nat × Nat) :=
  match splitColon t.data with
  | [hs, ms, ss] => some (digitsToNat hs, digitsToNat ms, digitsToNat ss)
  | _ => none

/-- One element of the `timesArray.map(...)` canonicalization: the first
parsed time combined with the date into a UTC timestamp
(`new Date(date + "T" + times[0] + "Z").getTime()`), `null` when no time
parses.  A parsed time whose hour exceeds 23 makes the JavaScript `Date`
invalid (`NaN`, which is *not* `null`); such labels are outside the
modelled domain and mapped to `none` here — the theorems quantifying over
whole arrays restrict every label to `labelValid` below. -/
def canonElt (date : Int) (lbl : String) : Option Int :=
  match parseTimes lbl with
  | [] => none
  | t :: _ =>
    match parseClock t with
    | some (h, m, s) =>
      if h ≤ 23 && m ≤ 59 && s ≤ 59 then
        some (date * msPerDay + (3600000 * (h : Int) + 60000 * m + 1000 * s))
      else none
    | none => none

def canonTimestamps (date : Int) (arr : List String) : List (Option Int) :=
  arr.map (canonElt date)

/-- The modelled domain of one grid label: either no time parses (the
JavaScript timestamp is then genuinely `null`), or the first parsed time
is a valid in-day time, so the JavaScript `Date` is valid and lies in the
same UTC day.  A label outside this set (an hour field above 23 or a
minute field above 59, e.g. `"13:45 PM"`) gives the JavaScript a `NaN`
timestamp — or, for `"24:00 AM"`, a next-day one — rather than `null`,
paths `canonElt` does not model. -/
def labelValid (lbl : String) : Bool :=
  match parseTimes lbl with
  | [] => true
  | t :: _ =>
    match parseClock t with
    | some (h, m, s) => h ≤ 23 && m ≤ 59 && s ≤ 59
    | none => false

/-- Length of the leading run of `null`s: the inner
`while (j < n && timestamps[j] === null) ++j;` scan. -/
def countLeadingNone : List (Option Int) → Nat
  | [] => 0
  | none :: l => countLeadingNone l + 1
  | some _ :: _ => 0

/-- The interior gap fill `while (current < end) { push(current); current += dm }`
(fuel-indexed; the callers pass fuel `(end − start).toNat`, enough since
`dm ≥ 1` in the modelled domain). -/
def fillFwdF (dm e : Int) : Nat → Int → List Int
  | 0, _ => []
  | fuel+1, cur => if cur < e then cur :: fillFwdF dm e fuel (cur + dm) else []

/-- The leading backfill `for (k = j-1; k >= i; --k) { current -= dm; push }`:
emits `v − dm, v − 2dm, …, v − k·dm` in that (time-decreasing) order. -/
def fillBack (dm v : Int) : Nat → List Int
  | 0 => []
  | k+1 => (v - dm) :: fillBack dm (v - dm) k

/-- The trailing fill `for (k = i; k < n; ++k) { current += dm; push }`:
emits `v + dm, v + 2dm, …, v + m·dm` in increasing order. -/
def fillUp (dm v : Int) : Nat → List Int
  | 0 => []
  | k+1 => (v + dm) :: fillUp dm (v + dm) k

/-- The index `j` of the inner scan
`let j = i; while (j < n && timestamps[j] === null) ++j;`: the first
position at or after `i` holding a known timestamp (or the array length). -/
def nextKnown (ts : List (Option Int)) (i : Nat) : Nat :=
  i + countLeadingNone (ts.drop i)

/-- The main availability scan of `parseTimesAndAvailabilities`, index `i`
walking the canonicalized timestamp array, `nextKnown ts i` playing the
inner loop's `j`.  Fuel-indexed (each step advances `i`, so fuel
`length + 1` suffices); `none` models the crash the JavaScript hits when
every entry is `null`: the leading-run branch then reads `timestamps[n]`
(`undefined`), the arithmetic produces `NaN`, and `toISOString` throws. -/
def scanAvailF (ts : List (Option Int)) (dm : Int) : Nat → Nat → Option (List Obs)
  | 0, _ => none
  | fuel+1, i =>
    if i < ts.length then
      if i = nextKnown ts i then
        match ts.getD i none with
        | some v => (scanAvailF ts dm fuel (i+1)).map (fun out => mkObs .available v :: out)
        | none => none
      else if 0 < i ∧ nextKnown ts i < ts.length then
        match ts.getD (i-1) none, ts.getD (nextKnown ts i) none with
        | some s, some e =>
          (scanAvailF ts dm fuel (nextKnown ts i)).map
            (fun out => (fillFwdF dm e ((e - s).toNat) (s + dm)).map (mkObs .unavailable) ++ out)
        | _, _ => none
      else if i = 0 then
        if nextKnown ts i < ts.length then
          match ts.getD (nextKnown ts i) none with
          | some v =>
            (scanAvailF ts dm fuel (nextKnown ts i)).map
              (fun out => (fillBack dm v (nextKnown ts i - i)).map (mkObs .unavailable) ++ out)
          | none => none
        else none
      else
        match ts.getD (i-1) none with
        | some v =>
          (scanAvailF ts dm fuel (nextKnown ts i)).map
            (fun out => (fillUp dm v (ts.length - i)).map (mkObs .unavailable) ++ out)
        | none => none
    else some []

/-- `deltaMilliseconds`: the inferred grid granularity of the fragment. -/
def dmOf (arr : List String) : Int := (if quarterLbl arr then 15 else 30) * 60000

/-- `parseTimesAndAvailabilities(date, timesArray)`. -/
def parseTimesAndAvailabilities (date : Int) (arr : List String) : Option (List Obs) :=
  if blankGuard arr then some []
  else
    scanAvailF (canonTimestamps date arr) (dmOf arr) ((canonTimestamps date arr).length + 1) 0

/-! ### VisibilityWindowInference
(`handleRestaurantPageWithFullAvailabilityPopup`, slot branch) -/

/-- One `(time, visibility)` pair collected from a slot. -/
structure TV where
  time : String
  visibility : Bool
deriving DecidableEq

/-- One emitted `{time, info}` observation of the popup's day. -/
structure TimeObs where
  time : String
  availability : Availability
deriving DecidableEq

/-- Slot collection (lines building `timesAndVisibilities`): keep a pair
exactly when the slot's text parses to exactly one time. -/
def collectTVs (slots : List (String × Bool)) : List TV :=
  slots.filterMap (fun s =>
    match parseTimes s.1 with
    | [t] => some ⟨t, s.2⟩
    | _ => none)

/-- Insertion step of the sort
`timesAndVisibilities.sort((a, b) => a.time === b.time ? 0 : a.time < b.time ? -1 : 1)`. -/
def insertTV (x : TV) : List TV → List TV
  | [] => [x]
  | y :: ys => if jsLt x.time y.time then x :: y :: ys else y :: insertTV x ys

/-- Stable ascending sort by time (insertion sort; agrees with the
JavaScript comparator sort on the distinct-time inputs of the modelled
domain). -/
def sortTV : List TV → List TV
  | [] => []
  | x :: xs => insertTV x (sortTV xs)

/-- Fuel bound for the tick-emission loop: from any `HH:mm:ss` start the
hour reaches 24 (where every comparison against a `23:…` end fails) in at
most 97 steps of 15 minutes. -/
def loopFuel : Nat := 128

/-- The tick-emission loop
`for (let t = start; t <= end; t = getNextTime(t, deltaMinutes))`, pushing
`available` iff `t` is in the known-time set.  Fuel-indexed; `none` means
the loop did not reach its exit within the fuel. -/
def tickEmit (known : List String) (dm : Nat) (endT : String) : Nat → String → Option (List TimeObs)
  | 0, _ => none
  | fuel+1, t =>
    if jsLe t endT then
      (tickEmit known dm endT fuel (getNextTime t dm)).map
        (fun out => ⟨t, if known.contains t then .available else .unavailable⟩ :: out)
    else some []

/-- The whole per-day visibility-window inference (source lines 753-809):
sort, infer granularity from the presence of a `":15:"` infix, compute
`L/R/a/b`, derive the window by the four-case chain (whose conditions are
JavaScript string comparisons; when no slot is visible `a` and `b` are
`undefined` and every comparison is false, leaving the full-day defaults),
then emit one observation per tick of the window. -/
def inferDayObservations (tvs : List TV) : Option (List TimeObs) :=
  if tvs.isEmpty then some []
  else
    let sorted := sortTV tvs
    let dm := if sorted.any (fun t => containsSub ":15:".data t.time.data) then 15 else 30
    let lt0 : String := (sorted.headD ⟨"", false⟩).time
    let rt0 : String := (sorted.getLastD ⟨"", false⟩).time
    let a : Option String := (sorted.find? (fun t => t.visibility)).map (fun t => t.time)
    let b : Option String := ((sorted.reverse).find? (fun t => t.visibility)).map (fun t => t.time)
    let startEnd : String × String :=
      match a, b with
      | some av, some bv =>
        if lt0 == av && bv == rt0 then ("00:00:00", "23:59:59")
        else if lt0 == av && jsLt bv rt0 then ("00:00:00", bv)
        else if jsLt lt0 av && bv == rt0 then (av, "23:59:59")
        else if jsLt lt0 av && jsLt bv rt0 then (av, bv)
        else ("00:00:00", "23:59:59")
      | _, _ => ("00:00:00", "23:59:59")
    let known := sorted.map (fun t => t.time)
    tickEmit known dm startEnd.2 loopFuel startEnd.1

/-! Spec-side definitions for the visibility window (modelled from the
claim's words, for comparison with `inferDayObservations`). -/

/-- Window start per the claim: `00:00:00` (minute 0) when the earliest
time overall equals the earliest visible time, otherwise the earliest
visible time. -/
def windowStartSpec (lv av : Nat) : Nat := if lv = av then 0 else av

/-- Window end per the claim: `23:59:59` (covering every tick up to minute
1439) when the latest time overall equals the latest visible time,
otherwise the latest visible time. -/
def windowEndSpec (rv bv : Nat) : Nat := if bv = rv then 1439 else bv

/-- The ticks `s, s + dm, s + 2·dm, …` up to `e` inclusive (minute values). -/
def tickList (dm s e : Nat) : List Nat :=
  if s ≤ e then (List.range ((e - s) / dm + 1)).map (fun k => s + k * dm) else []

/-- Spec-side emission: one observation per tick of the window, `available`
iff the tick's time string is in the known-time set. -/
def specEmission (known : List String) (dm s e : Nat) : List TimeObs :=
  (tickList dm s e).map (fun v =>
    ⟨timeStr (v / 60) (v % 60) 0,
      if known.contains (timeStr (v / 60) (v % 60) 0) then .available else .unavailable⟩)

/-! ### ResultAggregator: idempotency marks -/

/-- A record pushed for one container: either the verbatim
"no online availability" info record or one grid observation. -/
inductive SRec
  | infoRec
  | slotRec (o : Obs)
deriving DecidableEq

/-- Processing of one visible search-result `restaurant-card` container in
one invocation: skipped when invisible or already recorded; the
"no online availability" branch pushes one info record and marks; the grid
branch pushes the availabilities and marks exactly when at least one was
pushed. -/
def processCard (recorded visible noAvail : Bool) (avails : List Obs) : Bool × List SRec :=
  if !visible then (recorded, [])
  else if recorded then (recorded, [])
  else if noAvail then (true, [SRec.infoRec])
  else (!avails.isEmpty, avails.map SRec.slotRec)

/-- Processing of one promoted (`multi-search-pop-table`) container: marked
on first sight, before any record is pushed. -/
def processPromoted (recorded visible noAvail : Bool) (avails : List Obs) : Bool × List SRec :=
  if !visible then (recorded, [])
  else if recorded then (recorded, [])
  else (true, if noAvail then [SRec.infoRec] else avails.map SRec.slotRec)

/-- A sequence of invocations over one card container: each invocation
supplies the visibility flag, the no-availability flag and the grid yield;
the recorded mark persists across invocations. -/
def runCard (st : Bool) : List (Bool × Bool × List Obs) → Bool × List SRec
  | [] => (st, [])
  | x :: xs =>
    let r := processCard st x.1 x.2.1 x.2.2
    let rest := runCard r.1 xs
    (rest.1, r.2 ++ rest.2)

def runPromoted (st : Bool) : List (Bool × Bool × List Obs) → Bool × List SRec
  | [] => (st, [])
  | x :: xs =>
    let r := processPromoted st x.1 x.2.1 x.2.2
    let rest := runPromoted r.1 xs
    (rest.1, r.2 ++ rest.2)

/-! ### ResultAggregator: interval synthesis (`handleSearchPage` popup) -/

/-- A `(date, time)` moment, ordered lexicographically (as the source's
string comparisons order the canonical date and time strings). -/
structure DT where
  date : Int
  time : Int
deriving DecidableEq

def dtLe (x y : DT) : Prop := x.date < y.date ∨ (x.date = y.date ∧ x.time ≤ y.time)

instance (x y : DT) : Decidable (dtLe x y) := by
  unfold dtLe; infer_instance

/-- `a` is an available observation at or before the baseline
(`a.date < baseDate || (a.date === baseDate && a.time <= baseTime)`). -/
def availAtOrBefore (base : DT) (a : Obs) : Prop :=
  a.availability = .available ∧
    (a.date < base.date ∨ (a.date = base.date ∧ a.time ≤ base.time))

/-- `a` is an available observation strictly after the baseline. -/
def availAfter (base : DT) (a : Obs) : Prop :=
  a.availability = .available ∧
    (a.date > base.date ∨ (a.date = base.date ∧ a.time > base.time))

instance (base : DT) (a : Obs) : Decidable (availAtOrBefore base a) := by
  unfold availAtOrBefore; infer_instance

instance (base : DT) (a : Obs) : Decidable (availAfter base a) := by
  unfold availAfter; infer_instance

/-- The per-record update of `prevAvailable` / `nextAvailable` inside the
popup loop. -/
def popupStep (base : DT) (st : Option DT × Option DT) (a : Obs) : Option DT × Option DT :=
  if a.availability = .available then
    let prev :=
      if a.date < base.date ∨ (a.date = base.date ∧ a.time ≤ base.time) then
        match st.1 with
        | none => some ⟨a.date, a.time⟩
        | some p =>
          if a.date > p.date ∨ (a.date = p.date ∧ a.time > p.time) then some ⟨a.date, a.time⟩
          else some p
      else st.1
    let next :=
      if a.date > base.date ∨ (a.date = base.date ∧ a.time > base.time) then
        match st.2 with
        | none => some ⟨a.date, a.time⟩
        | some q =>
          if a.date < q.date ∨ (a.date = q.date ∧ a.time < q.time) then some ⟨a.date, a.time⟩
          else some q
      else st.2
    (prev, next)
  else st

/-- `prevAvailable` and `nextAvailable` after the popup's loop over all
emitted observations. -/
def popupFold (base : DT) (obs : List Obs) : Option DT × Option DT :=
  obs.foldl (popupStep base) (none, none)

/-- The first-page interval emission: both bounds known → one interval
`[prev, next)`; only `nextAvailable` known → `[baseline, next)`; otherwise
nothing.  Off the first page nothing is emitted. -/
def popupIntervals (base : DT) (prev next : Option DT) (firstPage : Bool) : List (DT × DT) :=
  if firstPage then
    match prev, next with
    | some p, some q => [(p, q)]
    | none, some q => [(base, q)]
    | _, none => []
  else []

/-! ### Auxiliary views used by the theorems -/

def dtOf (a : Obs) : DT := ⟨a.date, a.time⟩

def dtLt (x y : DT) : Prop := x.date < y.date ∨ (x.date = y.date ∧ x.time < y.time)

instance (x y : DT) : Decidable (dtLt x y) := by
  unfold dtLt; infer_instance

/-- The `prevAvailable` component of one `popupStep`. -/
def prevUpd (base : DT) (p : Option DT) (a : Obs) : Option DT :=
  if a.availability = .available then
    if a.date < base.date ∨ (a.date = base.date ∧ a.time ≤ base.time) then
      match p with
      | none => some ⟨a.date, a.time⟩
      | some pv =>
        if a.date > pv.date ∨ (a.date = pv.date ∧ a.time > pv.time) then some ⟨a.date, a.time⟩
        else some pv
    else p
  else p

/-- The `nextAvailable` component of one `popupStep`. -/
def nextUpd (base : DT) (q : Option DT) (a : Obs) : Option DT :=
  if a.availability = .available then
    if a.date > base.date ∨ (a.date = base.date ∧ a.time > base.time) then
      match q with
      | none => some ⟨a.date, a.time⟩
      | some qv =>
        if a.date < qv.date ∨ (a.date = qv.date ∧ a.time < qv.time) then some ⟨a.date, a.time⟩
        else some qv
    else q
  else q

/-- The timestamp a record came from (`date · 86400000 + time`). -/
def obsKey (o : Obs) : Int := o.date * msPerDay + o.time

/-- One slot of a visibility-window fragment, presented numerically:
`(hour, minute, isVisible)`. -/
def entryVal (e : Nat × Nat × Bool) : Nat := 60 * e.1 + e.2.1

def entryTV (e : Nat × Nat × Bool) : TV := ⟨timeStr e.1 e.2.1 0, e.2.2⟩

def validEntry (e : Nat × Nat × Bool) : Prop := e.1 ≤ 23 ∧ e.2.1 < 60

instance (e : Nat × Nat × Bool) : Decidable (validEntry e) := by
  unfold validEntry; infer_instance

/-! ## Digit and string rendering lemmas -/

theorem digitChar_toNat (d : Nat) (hd : d ≤ 9) : (digitChar d).toNat = 48 + d := by
  interval_cases d <;> rfl

theorem digitChar_ne_colon (d : Nat) : digitChar d ≠ ':' := by
  unfold digitChar
  split <;> decide

theorem digitVal_digitChar (d : Nat) (hd : d ≤ 9) : digitVal (digitChar d) = d := by
  interval_cases d <;> rfl

theorem digitsToNat_snoc (l : List Char) (c : Char) :
    digitsToNat (l ++ [c]) = 10 * digitsToNat l + digitVal c := by
  simp [digitsToNat, List.foldl_append]

theorem natCharsF_spec :
    ∀ fuel n, n < fuel →
      digitsToNat (natCharsF fuel n) = n ∧ ∀ c ∈ natCharsF fuel n, ∃ d, d ≤ 9 ∧ c = digitChar d := by
  intro fuel
  induction fuel with
  | zero => omega
  | succ f ih =>
    intro n hn
    rw [natCharsF]
    by_cases h10 : n < 10
    · simp only [if_pos h10]
      refine ⟨?_, ?_⟩
      · show digitsToNat [digitChar n] = n
        simpa [digitsToNat] using digitVal_digitChar n (by omega)
      · intro c hc
        simp at hc
        exact ⟨n, by omega, hc⟩
    · have hdiv : n / 10 < f := by
        have := Nat.div_lt_self (by omega : 0 < n) (by omega : 1 < 10)
        omega
      obtain ⟨ihv, ihm⟩ := ih (n / 10) hdiv
      simp only [if_neg h10]
      refine ⟨?_, ?_⟩
      · rw [digitsToNat_snoc, ihv, digitVal_digitChar (n % 10) (by omega)]
        omega
      · intro c hc
        rcases List.mem_append.mp hc with h | h
        · exact ihm c h
        · simp at h
          exact ⟨n % 10, by omega, h⟩

theorem natChars_val (n : Nat) : digitsToNat (natChars n) = n :=
  (natCharsF_spec (n + 1) n (by omega)).1

theorem natChars_digits (n : Nat) : ∀ c ∈ natChars n, ∃ d, d ≤ 9 ∧ c = digitChar d :=
  (natCharsF_spec (n + 1) n (by omega)).2

theorem pad2_data_digits (n : Nat) : ∀ c ∈ (pad2 n).data, ∃ d, d ≤ 9 ∧ c = digitChar d := by
  intro c hc
  unfold pad2 at hc
  rcases List.mem_append.mp hc with h | h
  · have : c = '0' := List.eq_of_mem_replicate h
    exact ⟨0, by omega, by rw [this]; rfl⟩
  · exact natChars_digits n c h

theorem pad2_no_colon (n : Nat) : ∀ c ∈ (pad2 n).data, c ≠ ':' := by
  intro c hc
  obtain ⟨d, _, rfl⟩ := pad2_data_digits n c hc
  exact digitChar_ne_colon d

theorem digitsToNat_replicate_zero (k : Nat) (l : List Char) :
    digitsToNat (List.replicate k '0' ++ l) = digitsToNat l := by
  induction k with
  | zero => rfl
  | succ k ih =>
    rw [List.replicate_succ]
    show List.foldl _ (10 * 0 + digitVal '0') _ = _
    exact ih

theorem digitsToNat_pad2 (n : Nat) : digitsToNat (pad2 n).data = n := by
  unfold pad2
  rw [digitsToNat_replicate_zero]
  exact natChars_val n

theorem splitColon_no_colon (l : List Char) (h : ∀ c ∈ l, c ≠ ':') : splitColon l = [l] := by
  induction l with
  | nil => rfl
  | cons c cs ih =>
    rw [splitColon, if_neg (h c (by simp)), ih (fun x hx => h x (by simp [hx]))]

theorem splitColon_append (l r : List Char) (h : ∀ c ∈ l, c ≠ ':') :
    splitColon (l ++ ':' :: r) = l :: splitColon r := by
  induction l with
  | nil => simp [splitColon]
  | cons c cs ih =>
    rw [List.cons_append, splitColon, if_neg (h c (by simp)),
      ih (fun x hx => h x (by simp [hx]))]

theorem timeStr_data (h m s : Nat) :
    (timeStr h m s).data = (pad2 h).data ++ ':' :: ((pad2 m).data ++ ':' :: (pad2 s).data) := by
  simp [timeStr]

theorem splitColon_timeStr (h m s : Nat) :
    splitColon (timeStr h m s).data = [(pad2 h).data, (pad2 m).data, (pad2 s).data] := by
  rw [timeStr_data, splitColon_append _ _ (pad2_no_colon h),
    splitColon_append _ _ (pad2_no_colon m), splitColon_no_colon _ (pad2_no_colon s)]

theorem parseClock_timeStr (h m s : Nat) : parseClock (timeStr h m s) = some (h, m, s) := by
  unfold parseClock
  rw [splitColon_timeStr]
  simp [digitsToNat_pad2]

theorem getNextTime_timeStr (h m s d : Nat) :
    getNextTime (timeStr h m s) d = timeStr (h + (m + d) / 60) ((m + d) % 60) s := by
  unfold getNextTime
  rw [splitColon_timeStr]
  simp [digitsToNat_pad2]

/-! ## C7 and C8 -/

theorem to24_eq_to24Spec (h12 mn : Nat) (pm : Bool) : to24 h12 mn pm = to24Spec h12 mn pm := by
  cases pm <;> by_cases h : h12 = 12 <;> simp [to24, to24Spec, h]

/-- C7: `parseTimes` returns all `h:mm AM/PM` matches in order of
appearance, each converted by the 12 AM → 00 / 12 PM → 12 zero-padded
rule (this is `parseTimesSpec`, written from the spec's words); it returns
`[]` when nothing matches, and on `"8:15 PM...8:30 PM"` it yields
`["20:15:00", "20:30:00"]` — appearance order, not chronological order. -/
theorem c7_parseTimes_all_matches :
    (∀ s : String, parseTimes s = parseTimesSpec s) ∧
    parseTimes "8:15 PM...8:30 PM" = ["20:15:00", "20:30:00"] ∧
    parseTimes "only words, no clock here" = [] ∧
    parseTimes "9:30 PM then 8:00 AM" = ["21:30:00", "08:00:00"] := by
    refine ⟨?_, by decide, by decide, by decide⟩
    intro s
    unfold parseTimes parseTimesSpec
    exact List.map_congr_left (fun r _ => to24_eq_to24Spec r.1 r.2.1 r.2.2)

/-- C8: `getNextTime` adds the minutes with carry into the hour and never
reduces the hour modulo 24: on every valid `HH:mm:ss` input the result is
the re-rendered `(h + (m + d) / 60, (m + d) % 60, s)`, whose hour field can
reach or exceed 24; in particular `getNextTime("23:45:00", 30) = "24:15:00"`. -/
theorem c8_getNextTime_no_hour_wrap :
    (∀ h m s d : Nat, h ≤ 23 → m ≤ 59 → s ≤ 59 →
      getNextTime (timeStr h m s) d = timeStr (h + (m + d) / 60) ((m + d) % 60) s) ∧
    getNextTime "23:45:00" 30 = "24:15:00" :=
  ⟨fun h m s d _ _ _ => getNextTime_timeStr h m s d, by decide⟩

/-- Witness for C8 at `23:45:00 + 30`: the hour field reaches 24. -/
theorem c8_witness :
    getNextTime (timeStr 23 45 0) 30 = timeStr (23 + (45 + 30) / 60) ((45 + 30) % 60) 0 :=
  c8_getNextTime_no_hour_wrap.1 23 45 0 30 (by omega) (by omega) (by omega)

/-! ## C6: idempotency marks -/

theorem processCard_sealed (v n : Bool) (ys : List Obs) :
    processCard true v n ys = (true, []) := by
  cases v <;> simp [processCard]

theorem processPromoted_sealed (v n : Bool) (ys : List Obs) :
    processPromoted true v n ys = (true, []) := by
  cases v <;> simp [processPromoted]

/-- C6: a visible, not-yet-recorded card container is marked exactly when it
contributed at least one record this invocation; a zero-yield card stays
unmarked with empty output, and such an invocation is a no-op in a trace, so
the container is retried later; a visible promoted container is marked on
first sight whatever its yield; and a marked container of either kind never
contributes a record again, over any further trace. -/
theorem c6_recording_idempotency :
    (∀ (noAvail : Bool) (ys : List Obs),
      (processCard false true noAvail ys).1 = true ↔ (processCard false true noAvail ys).2 ≠ []) ∧
    processCard false true false [] = (false, []) ∧
    (∀ rest, runCard false ((true, false, ([] : List Obs)) :: rest) = runCard false rest) ∧
    (∀ (noAvail : Bool) (ys : List Obs), (processPromoted false true noAvail ys).1 = true) ∧
    (∀ (visible noAvail : Bool) (ys : List Obs),
      processCard true visible noAvail ys = (true, []) ∧
      processPromoted true visible noAvail ys = (true, [])) ∧
    (∀ tr, (runCard true tr).2 = [] ∧ (runPromoted true tr).2 = []) := by
  refine ⟨?_, by simp [processCard], ?_, ?_, ?_, ?_⟩
  · intro noAvail ys
    cases noAvail <;> simp [processCard]
  · intro rest
    simp [runCard, processCard]
  · intro noAvail ys
    cases noAvail <;> simp [processPromoted]
  · intro visible noAvail ys
    exact ⟨processCard_sealed _ _ _, processPromoted_sealed _ _ _⟩
  · intro tr
    induction tr with
    | nil => exact ⟨rfl, rfl⟩
    | cons x xs ih =>
      refine ⟨?_, ?_⟩
      · show (let r := processCard true x.1 x.2.1 x.2.2
          let rest := runCard r.1 xs
          (rest.1, r.2 ++ rest.2)).2 = []
        rw [processCard_sealed]
        simpa using ih.1
      · show (let r := processPromoted true x.1 x.2.1 x.2.2
          let rest := runPromoted r.1 xs
          (rest.1, r.2 ++ rest.2)).2 = []
        rw [processPromoted_sealed]
        simpa using ih.2

/-! ## C9: unparseable labels are blank grid positions -/

/-- C9: any label with no parseable time — not only `""` — canonicalizes to
a `null` timestamp; the early return fires exactly on an empty or
all-empty-string array, so an array of nonempty unparseable labels is not
rejected yet yields no known timestamps; and an unparseable label standing
next to a parsed one is backfilled as an unavailable grid tick. -/
theorem c9_unparseable_is_blank :
    (∀ (d : Int) (lbl : String), parseTimes lbl = [] → canonElt d lbl = none) ∧
    (∀ arr : List String, blankGuard arr = true ↔ (arr = [] ∨ ∀ l ∈ arr, l = "")) ∧
    blankGuard ["closed", "sold out"] = false ∧
    canonTimestamps 0 ["closed", "sold out"] = [none, none] ∧
    parseTimesAndAvailabilities 0 ["closed", "8:30 PM"] =
      some [mkObs .unavailable 72000000, mkObs .available 73800000] := by
  refine ⟨?_, ?_, by decide, by decide, by decide⟩
  · intro d lbl h
    unfold canonElt
    rw [h]
  · intro arr
    unfold blankGuard
    rcases arr with _ | ⟨x, xs⟩
    · simp
    · simp [List.any_eq_true]

/-- Witness for C9 on a nonempty unparseable label. -/
theorem c9_witness : canonElt 0 "closed today" = none :=
  c9_unparseable_is_blank.1 0 "closed today" (by decide)

/-! ## C2: no visible entry still emits a full day -/

/-- C2 (divergence witness): on a fragment whose single entry is invisible,
`a` and `b` are `undefined`, all four window conditions compare false, the
window defaults to `[00:00:00, 23:59:59]`, and the code emits the whole
48-tick day — including the never-seen `11:30:00` marked `available` —
instead of the zero observations the specification requires. -/
theorem c2_no_visible_emits_full_day :
    inferDayObservations [⟨"11:30:00", false⟩] = some (specEmission ["11:30:00"] 30 0 1439) ∧
    specEmission ["11:30:00"] 30 0 1439 ≠ [] ∧
    (specEmission ["11:30:00"] 30 0 1439).length = 48 ∧
    (⟨"11:30:00", .available⟩ : TimeObs) ∈ specEmission ["11:30:00"] 30 0 1439 :=
  ⟨by decide, by decide, by decide, by decide⟩

/-! ## Lexicographic comparison of rendered time strings -/

theorem pad2_lt100 (n : Nat) (hn : n < 100) :
    (pad2 n).data = [digitChar (n / 10), digitChar (n % 10)] := by
  by_cases h10 : n < 10
  · have h1 : n / 10 = 0 := Nat.div_eq_of_lt h10
    have h2 : n % 10 = n := Nat.mod_eq_of_lt h10
    have hc : natChars n = [digitChar n] := by
      unfold natChars
      rw [natCharsF, if_pos h10]
    show List.replicate (2 - (natChars n).length) '0' ++ natChars n = _
    rw [hc, h1, h2]
    rfl
  · have hd : n / 10 < 10 := by omega
    have hc : natChars n = [digitChar (n / 10), digitChar (n % 10)] := by
      unfold natChars
      rw [natCharsF, if_neg h10]
      have hn1 : ∃ f, n = f + 1 := ⟨n - 1, by omega⟩
      obtain ⟨f, rfl⟩ := hn1
      rw [natCharsF, if_pos hd]
      rfl
    show List.replicate (2 - (natChars n).length) '0' ++ natChars n = _
    rw [hc]
    rfl

theorem chLtAux_digit_head (x y : Nat) (hx : x ≤ 9) (hy : y ≤ 9) (as bs : List Char) :
    chLtAux (digitChar x :: as) (digitChar y :: bs) =
      if x < y then true else if y < x then false else chLtAux as bs := by
  show (if (digitChar x).toNat < (digitChar y).toNat then true
      else if (digitChar y).toNat < (digitChar x).toNat then false else chLtAux as bs) = _
  rw [digitChar_toNat x hx, digitChar_toNat y hy]
  split_ifs <;> first | rfl | omega

theorem chLtAux_same_head (c : Char) (as bs : List Char) :
    chLtAux (c :: as) (c :: bs) = chLtAux as bs := by
  show (if c.toNat < c.toNat then true
      else if c.toNat < c.toNat then false else chLtAux as bs) = _
  simp

theorem chLtAux_pad2_block (x y : Nat) (hx : x < 100) (hy : y < 100) (as bs : List Char) :
    chLtAux ((pad2 x).data ++ as) ((pad2 y).data ++ bs) =
      if x < y then true else if y < x then false else chLtAux as bs := by
  rw [pad2_lt100 x hx, pad2_lt100 y hy]
  simp only [List.cons_append, List.nil_append]
  rw [chLtAux_digit_head _ _ (by omega) (by omega),
    chLtAux_digit_head _ _ (by omega) (by omega)]
  split_ifs <;> first | rfl | omega

theorem jsLt_timeStr_iff (h1 m1 s1 h2 m2 s2 : Nat)
    (hh1 : h1 < 100) (hm1 : m1 < 100) (hs1 : s1 < 100)
    (hh2 : h2 < 100) (hm2 : m2 < 100) (hs2 : s2 < 100) :
    jsLt (timeStr h1 m1 s1) (timeStr h2 m2 s2) = true ↔
      (h1 < h2 ∨ (h1 = h2 ∧ (m1 < m2 ∨ (m1 = m2 ∧ s1 < s2)))) := by
  unfold jsLt
  rw [timeStr_data, timeStr_data,
    show (pad2 s1).data = (pad2 s1).data ++ [] from (List.append_nil _).symm,
    show (pad2 s2).data = (pad2 s2).data ++ [] from (List.append_nil _).symm,
    chLtAux_pad2_block h1 h2 hh1 hh2, chLtAux_same_head,
    chLtAux_pad2_block m1 m2 hm1 hm2, chLtAux_same_head,
    chLtAux_pad2_block s1 s2 hs1 hs2,
    show chLtAux [] [] = false from rfl]
  split_ifs <;> simp <;> omega

theorem jsLe_timeStr_iff (h1 m1 s1 h2 m2 s2 : Nat)
    (hh1 : h1 < 100) (hm1 : m1 < 100) (hs1 : s1 < 100)
    (hh2 : h2 < 100) (hm2 : m2 < 100) (hs2 : s2 < 100) :
    jsLe (timeStr h1 m1 s1) (timeStr h2 m2 s2) = true ↔
      ¬(h2 < h1 ∨ (h2 = h1 ∧ (m2 < m1 ∨ (m2 = m1 ∧ s2 < s1)))) := by
  have hiff := jsLt_timeStr_iff h2 m2 s2 h1 m1 s1 hh2 hm2 hs2 hh1 hm1 hs1
  unfold jsLe
  cases hb : jsLt (timeStr h2 m2 s2) (timeStr h1 m1 s1) <;> simp_all

theorem timeStr_inj (h1 m1 s1 h2 m2 s2 : Nat) :
    timeStr h1 m1 s1 = timeStr h2 m2 s2 ↔ (h1 = h2 ∧ m1 = m2 ∧ s1 = s2) := by
  constructor
  · intro he
    have e1 := parseClock_timeStr h1 m1 s1
    rw [he, parseClock_timeStr h2 m2 s2] at e1
    simpa using e1.symm
  · rintro ⟨rfl, rfl, rfl⟩
    rfl

/-! ## The tick-emission loop -/

theorem tickList_cons (dm s e : Nat) (hdm : 0 < dm) (hse : s ≤ e) :
    tickList dm s e = s :: tickList dm (s + dm) e := by
  unfold tickList
  rw [if_pos hse]
  by_cases h : s + dm ≤ e
  · rw [if_pos h]
    have hdiv : (e - s) / dm = (e - (s + dm)) / dm + 1 := by
      rw [Nat.div_eq_sub_div hdm (by omega)]
      congr 2
      omega
    rw [hdiv, List.range_succ_eq_map]
    simp only [List.map_cons, List.map_map]
    congr 1
    · omega
    · apply List.map_congr_left
      intro i _
      simp only [Function.comp_apply, Nat.succ_eq_add_one]
      ring
  · rw [if_neg h, Nat.div_eq_of_lt (by omega : e - s < dm)]
    rw [show List.range 1 = [0] from rfl]
    simp

/-- Core correspondence: with a valid end time, from a canonical
zero-second start the string-driven loop emits exactly the arithmetic tick
list, provided the fuel covers the remaining minutes (the disjunct `h = 24`
is the loop's exit state). -/
theorem tickEmit_eq_spec (known : List String) (dm he me se : Nat)
    (hdm15 : 15 ≤ dm) (hdm60 : dm ≤ 60) (hhe : he ≤ 23) (hme : me < 60) (hse : se < 100) :
    ∀ fuel h m, m < 60 →
      ((h ≤ 23 ∧ 1440 ≤ 60 * h + m + (fuel - 1) * dm) ∨ (h = 24 ∧ 1 ≤ fuel)) →
      tickEmit known dm (timeStr he me se) fuel (timeStr h m 0) =
        some ((tickList dm (60 * h + m) (60 * he + me)).map (fun v =>
          ⟨timeStr (v / 60) (v % 60) 0,
            if known.contains (timeStr (v / 60) (v % 60) 0) then Availability.available
            else Availability.unavailable⟩)) := by
  intro fuel
  induction fuel with
  | zero =>
    intro h m hm hcase
    rcases hcase with ⟨hh, hb⟩ | ⟨_, hf⟩ <;> omega
  | succ f ih =>
    intro h m hm hcase
    simp only [Nat.add_sub_cancel] at hcase
    rw [tickEmit]
    by_cases hcmp : 60 * h + m ≤ 60 * he + me
    · have hh23 : h ≤ 23 := by
        rcases hcase with ⟨hh, _⟩ | ⟨h24, _⟩ <;> omega
      have hb : 1440 ≤ 60 * h + m + f * dm := by
        rcases hcase with ⟨_, hb⟩ | ⟨h24, _⟩ <;> omega
      obtain ⟨f2, rfl⟩ : ∃ f2, f = f2 + 1 := by
        rcases f with _ | f2
        · exfalso
          simp only [Nat.zero_mul] at hb
          omega
        · exact ⟨f2, rfl⟩
      simp only [Nat.add_mul, Nat.one_mul] at hb
      have hle : jsLe (timeStr h m 0) (timeStr he me se) = true :=
        (jsLe_timeStr_iff h m 0 he me se (by omega) (by omega) (by omega)
          (by omega) (by omega) hse).mpr (by omega)
      rw [hle]
      simp only [if_true]
      rw [getNextTime_timeStr]
      have harith : 60 * (h + (m + dm) / 60) + (m + dm) % 60 = 60 * h + m + dm := by omega
      have hrec := ih (h + (m + dm) / 60) ((m + dm) % 60) (by omega) ?_
      · rw [harith] at hrec
        rw [hrec, tickList_cons dm _ _ (by omega) hcmp, List.map_cons, Option.map_some']
        have hv1 : (60 * h + m) / 60 = h := by omega
        have hv2 : (60 * h + m) % 60 = m := by omega
        rw [hv1, hv2]
      · simp only [Nat.add_sub_cancel]
        by_cases h24 : h + (m + dm) / 60 = 24
        · right
          exact ⟨h24, by omega⟩
        · left
          exact ⟨by omega, by omega⟩
    · have hh24 : h ≤ 24 := by
        rcases hcase with ⟨hh, _⟩ | ⟨h24, _⟩ <;> omega
      have hlt : jsLt (timeStr he me se) (timeStr h m 0) = true :=
        (jsLt_timeStr_iff he me se h m 0 (by omega) (by omega) hse
          (by omega) (by omega) (by omega)).mpr (by omega)
      have hle : jsLe (timeStr h m 0) (timeStr he me se) = false := by
        unfold jsLe
        rw [hlt]
        rfl
      rw [hle]
      have hnil : tickList dm (60 * h + m) (60 * he + me) = [] := by
        unfold tickList
        rw [if_neg (by omega)]
      rw [hnil]
      simp

/-- Termination of the loop from any valid start (seconds field arbitrary):
the state's hour never exceeds 24 and at 24 every comparison with a
`23:…`-or-earlier end fails, so the natural exit is reached. -/
theorem tickEmit_total (known : List String) (dm he me se : Nat)
    (hdm15 : 15 ≤ dm) (hdm60 : dm ≤ 60) (hhe : he ≤ 23) (hme : me < 60) (hse : se < 100) :
    ∀ fuel h m s0, m < 60 → s0 < 100 →
      ((h ≤ 23 ∧ 1440 ≤ 60 * h + m + (fuel - 1) * dm) ∨ (h = 24 ∧ 1 ≤ fuel)) →
      (tickEmit known dm (timeStr he me se) fuel (timeStr h m s0)).isSome = true := by
  intro fuel
  induction fuel with
  | zero =>
    intro h m s0 hm hs0 hcase
    rcases hcase with ⟨hh, hb⟩ | ⟨_, hf⟩ <;> omega
  | succ f ih =>
    intro h m s0 hm hs0 hcase
    simp only [Nat.add_sub_cancel] at hcase
    rw [tickEmit]
    by_cases hb : jsLe (timeStr h m s0) (timeStr he me se) = true
    · have hh23 : h ≤ 23 := by
        by_contra hgt
        have h24 : h = 24 := by rcases hcase with ⟨hh, _⟩ | ⟨h24, _⟩ <;> omega
        have hiff : jsLe (timeStr h m s0) (timeStr he me se) = true ↔ _ :=
          jsLe_timeStr_iff h m s0 he me se (by omega) (by omega) hs0
            (by omega) (by omega) hse
        rw [hiff] at hb
        omega
      have hbound : 1440 ≤ 60 * h + m + f * dm := by
        rcases hcase with ⟨_, hv⟩ | ⟨h24, _⟩ <;> omega
      obtain ⟨f2, rfl⟩ : ∃ f2, f = f2 + 1 := by
        rcases f with _ | f2
        · exfalso
          simp only [Nat.zero_mul] at hbound
          omega
        · exact ⟨f2, rfl⟩
      simp only [Nat.add_mul, Nat.one_mul] at hbound
      rw [hb]
      simp only [if_true]
      rw [getNextTime_timeStr]
      rw [Option.isSome_map']
      apply ih (h + (m + dm) / 60) ((m + dm) % 60) s0 (by omega) hs0
      simp only [Nat.add_sub_cancel]
      by_cases h24 : h + (m + dm) / 60 = 24
      · right
        exact ⟨h24, by omega⟩
      · left
        exact ⟨by omega, by omega⟩
    · have hbf : jsLe (timeStr h m s0) (timeStr he me se) = false := by
        revert hb
        cases jsLe (timeStr h m s0) (timeStr he me se) <;> simp
      rw [hbf]
      simp

/-- C10: the visibility-window tick loop is total: for every window whose
start and end are valid `HH:mm:ss` strings at most `23:59:59` and every
granularity in {15, 30}, the loop (run with the modelled fuel bound)
reaches its natural exit, because each `getNextTime` step adds exactly the
granularity to the total minute value without wrapping the hour. -/
theorem c10_tick_loop_terminates (known : List String) (dm h m s he me se : Nat)
    (hdm : dm = 15 ∨ dm = 30) (hh : h ≤ 23) (hm : m ≤ 59) (hs : s ≤ 59)
    (hhe : he ≤ 23) (hme : me ≤ 59) (hse : se ≤ 59) :
    (tickEmit known dm (timeStr he me se) loopFuel (timeStr h m s)).isSome = true := by
  apply tickEmit_total known dm he me se (by omega) (by omega) hhe (by omega) (by omega)
    loopFuel h m s (by omega) (by omega)
  left
  refine ⟨hh, ?_⟩
  rw [show loopFuel = 128 from rfl]
  omega

/-- Witness for C10: the longest possible window, at granularity 15. -/
theorem c10_witness :
    (tickEmit [] 15 (timeStr 23 59 59) loopFuel (timeStr 0 0 0)).isSome = true :=
  c10_tick_loop_terminates [] 15 0 0 0 23 59 59 (Or.inl rfl) (by omega) (by omega)
    (by omega) (by omega) (by omega) (by omega)

/-! ## C1 support: the sort is the identity on sorted input, and
`find?` / `getLastD` pick extremes of a pairwise-sorted list -/

theorem insertTV_lt_head (x y : TV) (ys : List TV) (hxy : jsLt x.time y.time = true) :
    insertTV x (y :: ys) = x :: y :: ys := by
  unfold insertTV
  rw [if_pos hxy]

theorem sortTV_eq_self : ∀ l : List TV,
    List.Chain' (fun a b => jsLt a.time b.time = true) l → sortTV l = l
  | [], _ => rfl
  | [_], _ => rfl
  | x :: y :: ys, h => by
    have hxy := (List.chain'_cons.mp h).1
    have ht := (List.chain'_cons.mp h).2
    show insertTV x (sortTV (y :: ys)) = _
    rw [sortTV_eq_self (y :: ys) ht]
    exact insertTV_lt_head x y ys hxy

/-- In a pairwise `R`-ordered list, `find?` returns an element `R`-below
every other element satisfying the predicate. -/
theorem find?_best {α : Type} (R : α → α → Prop) (p : α → Bool) :
    ∀ l : List α, List.Pairwise R l → ∀ x, l.find? p = some x →
      ∀ y ∈ l, p y = true → x = y ∨ R x y := by
  intro l
  induction l with
  | nil =>
    intro _ x hx
    simp [List.find?] at hx
  | cons z zs ih =>
    intro hp x hx y hy hpy
    by_cases hz : p z = true
    · rw [List.find?_cons_of_pos _ hz] at hx
      obtain rfl : z = x := by simpa using hx
      rcases List.mem_cons.mp hy with rfl | hy'
      · exact Or.inl rfl
      · exact Or.inr ((List.pairwise_cons.mp hp).1 y hy')
    · rw [List.find?_cons_of_neg _ hz] at hx
      rcases List.mem_cons.mp hy with rfl | hy'
      · exact absurd hpy hz
      · exact ih (List.pairwise_cons.mp hp).2 x hx y hy' hpy

/-- `getLastD` of a pairwise `R`-ordered nonempty list is a member and an
`R`-upper bound. -/
theorem getLastD_best {α : Type} (R : α → α → Prop) :
    ∀ (l : List α) (d : α), List.Pairwise R (d :: l) →
      l.getLastD d ∈ d :: l ∧ ∀ y ∈ d :: l, y = l.getLastD d ∨ R y (l.getLastD d) := by
  intro l
  induction l with
  | nil =>
    intro d _
    refine ⟨by simp, ?_⟩
    intro y hy
    simp at hy
    exact Or.inl hy
  | cons z zs ih =>
    intro d hp
    rw [List.getLastD_cons]
    obtain ⟨hmem, hbound⟩ := ih z (List.pairwise_cons.mp hp).2
    refine ⟨List.mem_cons_of_mem d hmem, ?_⟩
    intro y hy
    rcases List.mem_cons.mp hy with rfl | hy'
    · exact Or.inr ((List.pairwise_cons.mp hp).1 _ hmem)
    · exact hbound y hy'

theorem getLastD_map {α β : Type} (f : α → β) :
    ∀ (l : List α) (x : α), (l.map f).getLastD (f x) = f (l.getLastD x) := by
  intro l
  induction l with
  | nil => intro x; rfl
  | cons z zs ih =>
    intro x
    rw [List.map_cons, List.getLastD_cons, List.getLastD_cons]
    exact ih z

/-- C1: on a day fragment with at least one visible entry — presented
sorted with distinct valid times, as the engine's own sort arranges it —
the four-case window rule of the claim (start `00:00:00` iff the earliest
time overall is the earliest visible time, else the earliest visible time;
end `23:59:59` iff the latest time overall is the latest visible time, else
the latest visible time) determines the window, and exactly one observation
is emitted per granularity tick from window start through window end
inclusive, marked `available` iff the tick's time string is in the
known-time set; no tick outside the window is emitted. -/
theorem c1_visibility_window_emission (entries : List (Nat × Nat × Bool)) (lv rv av bv : Nat)
    (hne : entries ≠ [])
    (hvalid : ∀ e ∈ entries, validEntry e)
    (hsorted : List.Chain' (fun x y => entryVal x < entryVal y) entries)
    (hlv : lv ∈ entries.map entryVal ∧ ∀ v ∈ entries.map entryVal, lv ≤ v)
    (hrv : rv ∈ entries.map entryVal ∧ ∀ v ∈ entries.map entryVal, v ≤ rv)
    (hav : av ∈ (entries.filter fun e => e.2.2).map entryVal ∧
      ∀ v ∈ (entries.filter fun e => e.2.2).map entryVal, av ≤ v)
    (hbv : bv ∈ (entries.filter fun e => e.2.2).map entryVal ∧
      ∀ v ∈ (entries.filter fun e => e.2.2).map entryVal, v ≤ bv) :
    inferDayObservations (entries.map entryTV) =
      some (specEmission ((entries.map entryTV).map (fun t => t.time))
        (if (entries.map entryTV).any (fun t => containsSub ":15:".data t.time.data) then 15
          else 30)
        (windowStartSpec lv av) (windowEndSpec rv bv)) := by
  -- global facts about the numeric values
  have hpw : List.Pairwise (fun x y => entryVal x < entryVal y) entries := by
    haveI : IsTrans (Nat × Nat × Bool) (fun x y => entryVal x < entryVal y) :=
      ⟨fun _ _ _ h1 h2 => lt_trans h1 h2⟩
    exact List.chain'_iff_pairwise.mp hsorted
  have hbnd : ∀ e ∈ entries, entryVal e ≤ 1439 := by
    intro e he
    obtain ⟨h1, h2⟩ := hvalid e he
    unfold entryVal
    omega
  have hsubv : ∀ v ∈ (entries.filter fun e => e.2.2).map entryVal, v ∈ entries.map entryVal := by
    intro v hv
    obtain ⟨e, he, rfl⟩ := List.mem_map.mp hv
    exact List.mem_map_of_mem _ (List.mem_filter.mp he).1
  obtain ⟨eLm, heLm, heLval⟩ := List.mem_map.mp hlv.1
  obtain ⟨eRm, heRm, heRval⟩ := List.mem_map.mp hrv.1
  have hlv1439 : lv ≤ 1439 := by rw [← heLval]; exact hbnd _ heLm
  have hrv1439 : rv ≤ 1439 := by rw [← heRval]; exact hbnd _ heRm
  have hlvav : lv ≤ av := hlv.2 av (hsubv av hav.1)
  have hbvrv : bv ≤ rv := hrv.2 bv (hsubv bv hbv.1)
  have havbv : av ≤ bv := hav.2 bv hbv.1
  have hav1439 : av ≤ 1439 := le_trans (le_trans havbv hbvrv) hrv1439
  have hbv1439 : bv ≤ 1439 := le_trans hbvrv hrv1439
  -- the sort leaves the (sorted) input unchanged
  have hpw2 : List.Pairwise
      (fun x y : Nat × Nat × Bool => jsLt (entryTV x).time (entryTV y).time = true) entries := by
    refine List.Pairwise.imp_of_mem ?_ hpw
    intro a b ha hb hab
    obtain ⟨ha1, ha2⟩ := hvalid a ha
    obtain ⟨hb1, hb2⟩ := hvalid b hb
    show jsLt (timeStr a.1 a.2.1 0) (timeStr b.1 b.2.1 0) = true
    rw [jsLt_timeStr_iff _ _ _ _ _ _ (by omega) (by omega) (by omega)
      (by omega) (by omega) (by omega)]
    unfold entryVal at hab
    omega
  have hchain : List.Chain' (fun a b : TV => jsLt a.time b.time = true) (entries.map entryTV) :=
    (List.chain'_map _).mpr (List.Pairwise.imp (fun h => h) hpw2).chain'
  have hsEq : sortTV (entries.map entryTV) = entries.map entryTV :=
    sortTV_eq_self _ hchain
  -- the head and last of the sorted list carry the min and max values
  rcases entries with _ | ⟨e0, es⟩
  · exact absurd rfl hne
  have he0 : e0 ∈ e0 :: es := by simp
  have he0lv : entryVal e0 = lv := by
    have h1 : lv ≤ entryVal e0 := hlv.2 _ (List.mem_map_of_mem entryVal he0)
    rcases List.mem_cons.mp heLm with rfl | heL'
    · omega
    · have := (List.pairwise_cons.mp hpw).1 eLm heL'
      omega
  obtain ⟨hlastMem, hlastBd⟩ := getLastD_best (fun x y => entryVal x < entryVal y) es e0 hpw
  have hlastrv : entryVal (es.getLastD e0) = rv := by
    have h1 : entryVal (es.getLastD e0) ≤ rv :=
      hrv.2 _ (List.mem_map_of_mem entryVal hlastMem)
    rcases hlastBd eRm heRm with h | h
    · rw [h] at heRval
      omega
    · omega
  -- the two find?s pick the min resp. max visible values
  obtain ⟨eAf, heAf⟩ := List.mem_map.mp hav.1
  have hexA : ∃ x ∈ e0 :: es, x.2.2 = true :=
    ⟨eAf, (List.mem_filter.mp heAf.1).1, by simpa using (List.mem_filter.mp heAf.1).2⟩
  obtain ⟨eA, heA⟩ := Option.isSome_iff_exists.mp (List.find?_isSome.mpr hexA)
  have heAmem : eA ∈ e0 :: es := List.mem_of_find?_eq_some heA
  have heAvis : eA.2.2 = true := by
    have := List.find?_some heA
    simpa using this
  have heAval : entryVal eA = av := by
    have hmm : entryVal eA ∈ ((e0 :: es).filter fun e => e.2.2).map entryVal :=
      List.mem_map_of_mem _ (List.mem_filter.mpr ⟨heAmem, by simpa using heAvis⟩)
    have h1 : av ≤ entryVal eA := hav.2 _ hmm
    have h2 : entryVal eA ≤ av := by
      have hbest := find?_best (fun x y => entryVal x < entryVal y) (fun e => e.2.2)
        (e0 :: es) hpw eA heA eAf (List.mem_filter.mp heAf.1).1
        (by simpa using (List.mem_filter.mp heAf.1).2)
      rcases hbest with rfl | h
      · omega
      · omega
    omega
  obtain ⟨eBf, heBf⟩ := List.mem_map.mp hbv.1
  have hexB : ∃ x ∈ (e0 :: es).reverse, x.2.2 = true :=
    ⟨eBf, List.mem_reverse.mpr (List.mem_filter.mp heBf.1).1,
      by simpa using (List.mem_filter.mp heBf.1).2⟩
  obtain ⟨eB, heB⟩ := Option.isSome_iff_exists.mp (List.find?_isSome.mpr hexB)
  have heBmem : eB ∈ e0 :: es := List.mem_reverse.mp (List.mem_of_find?_eq_some heB)
  have heBvis : eB.2.2 = true := by
    have := List.find?_some heB
    simpa using this
  have heBval : entryVal eB = bv := by
    have hmm : entryVal eB ∈ ((e0 :: es).filter fun e => e.2.2).map entryVal :=
      List.mem_map_of_mem _ (List.mem_filter.mpr ⟨heBmem, by simpa using heBvis⟩)
    have h1 : entryVal eB ≤ bv := hbv.2 _ hmm
    have h2 : bv ≤ entryVal eB := by
      have hpwrev : List.Pairwise (fun x y => entryVal y < entryVal x) (e0 :: es).reverse :=
        List.pairwise_reverse.mpr hpw
      have hbest := find?_best (fun x y => entryVal y < entryVal x) (fun e => e.2.2)
        (e0 :: es).reverse hpwrev eB heB eBf
        (List.mem_reverse.mpr (List.mem_filter.mp heBf.1).1)
        (by simpa using (List.mem_filter.mp heBf.1).2)
      rcases hbest with rfl | h
      · omega
      · omega
    omega
  -- component validity
  obtain ⟨he01, he02⟩ := hvalid e0 he0
  obtain ⟨heA1, heA2⟩ := hvalid eA heAmem
  obtain ⟨heB1, heB2⟩ := hvalid eB heBmem
  obtain ⟨heL1, heL2⟩ := hvalid _ hlastMem
  -- rewrite the four border strings as canonical renderings of the values
  have hE0 : entryTV e0 = ⟨timeStr (lv / 60) (lv % 60) 0, e0.2.2⟩ := by
    unfold entryTV
    unfold entryVal at he0lv
    have : e0.1 = lv / 60 ∧ e0.2.1 = lv % 60 := by omega
    rw [this.1, this.2]
  have hEL : entryTV (es.getLastD e0) = ⟨timeStr (rv / 60) (rv % 60) 0, (es.getLastD e0).2.2⟩ := by
    unfold entryTV
    unfold entryVal at hlastrv
    have : (es.getLastD e0).1 = rv / 60 ∧ (es.getLastD e0).2.1 = rv % 60 := by omega
    rw [this.1, this.2]
  have hEA : entryTV eA = ⟨timeStr (av / 60) (av % 60) 0, eA.2.2⟩ := by
    unfold entryTV
    unfold entryVal at heAval
    have : eA.1 = av / 60 ∧ eA.2.1 = av % 60 := by omega
    rw [this.1, this.2]
  have hEB : entryTV eB = ⟨timeStr (bv / 60) (bv % 60) 0, eB.2.2⟩ := by
    unfold entryTV
    unfold entryVal at heBval
    have : eB.1 = bv / 60 ∧ eB.2.1 = bv % 60 := by omega
    rw [this.1, this.2]
  -- unfold the engine
  unfold inferDayObservations
  rw [if_neg (by simp : ¬((e0 :: es).map entryTV).isEmpty = true)]
  simp only [hsEq]
  have hhead : (((e0 :: es).map entryTV).headD ⟨"", false⟩).time = timeStr (lv / 60) (lv % 60) 0 := by
    rw [List.map_cons, List.headD_cons, hE0]
  have hlast : (((e0 :: es).map entryTV).getLastD ⟨"", false⟩).time =
      timeStr (rv / 60) (rv % 60) 0 := by
    rw [List.map_cons, List.getLastD_cons, show entryTV e0 = entryTV e0 from rfl]
    rw [show ((es.map entryTV).getLastD (entryTV e0)) = entryTV (es.getLastD e0) from
      getLastD_map entryTV es e0]
    rw [hEL]
  have hfindA : ((e0 :: es).map entryTV).find? (fun t => t.visibility) = some (entryTV eA) := by
    rw [List.find?_map]
    rw [show ((fun t : TV => t.visibility) ∘ entryTV) = (fun e : Nat × Nat × Bool => e.2.2)
      from rfl]
    rw [heA]
    rfl
  have hfindB : (((e0 :: es).map entryTV).reverse).find? (fun t => t.visibility) =
      some (entryTV eB) := by
    rw [← List.map_reverse, List.find?_map]
    rw [show ((fun t : TV => t.visibility) ∘ entryTV) = (fun e : Nat × Nat × Bool => e.2.2)
      from rfl]
    rw [heB]
    rfl
  rw [hhead, hlast, hfindA, hfindB]
  simp only [Option.map_some']
  rw [hEA, hEB]
  -- the granularity is 15 or 30
  set dm := (if ((e0 :: es).map entryTV).any (fun t => containsSub ":15:".data t.time.data)
    then 15 else 30) with hdmdef
  have hdm : dm = 15 ∨ dm = 30 := by
    rw [hdmdef]
    by_cases hq : ((e0 :: es).map entryTV).any (fun t => containsSub ":15:".data t.time.data) = true
    · rw [if_pos hq]; exact Or.inl rfl
    · rw [if_neg hq]; exact Or.inr rfl
  -- dispatch the four window cases
  by_cases hLa : lv = av <;> by_cases hbR : bv = rv
  · -- start 00:00:00, end 23:59:59
    rw [show (timeStr (lv / 60) (lv % 60) 0 == timeStr (av / 60) (av % 60) 0) = true by
      rw [hLa]; exact beq_self_eq_true _]
    rw [show (timeStr (bv / 60) (bv % 60) 0 == timeStr (rv / 60) (rv % 60) 0) = true by
      rw [hbR]; exact beq_self_eq_true _]
    refine Eq.trans (tickEmit_eq_spec _ dm 23 59 59 (by omega) (by omega) (by omega) (by omega)
      (by omega) loopFuel 0 0 (by omega)
      (Or.inl ⟨by omega, by rw [show loopFuel = 128 from rfl]; omega⟩)) ?_
    unfold specEmission windowStartSpec windowEndSpec
    rw [if_pos hLa, if_pos hbR]
  · -- start 00:00:00, end bv
    rw [show (timeStr (lv / 60) (lv % 60) 0 == timeStr (av / 60) (av % 60) 0) = true by
      rw [hLa]; exact beq_self_eq_true _]
    have hbvrv' : bv < rv := by omega
    rw [show (timeStr (bv / 60) (bv % 60) 0 == timeStr (rv / 60) (rv % 60) 0) = false by
      rw [beq_eq_false_iff_ne]
      intro hcon
      rw [timeStr_inj] at hcon
      omega]
    rw [show jsLt (timeStr (bv / 60) (bv % 60) 0) (timeStr (rv / 60) (rv % 60) 0) = true from
      (jsLt_timeStr_iff _ _ _ _ _ _ (by omega) (by omega) (by omega) (by omega) (by omega)
        (by omega)).mpr (by omega)]
    refine Eq.trans (tickEmit_eq_spec _ dm (bv / 60) (bv % 60) 0 (by omega) (by omega)
      (by omega) (by omega) (by omega) loopFuel 0 0 (by omega)
      (Or.inl ⟨by omega, by rw [show loopFuel = 128 from rfl]; omega⟩)) ?_
    unfold specEmission windowStartSpec windowEndSpec
    rw [if_pos hLa, if_neg hbR]
    rw [show 60 * (bv / 60) + bv % 60 = bv by omega]
  · -- start av, end 23:59:59
    have hlvav' : lv < av := by omega
    rw [show (timeStr (lv / 60) (lv % 60) 0 == timeStr (av / 60) (av % 60) 0) = false by
      rw [beq_eq_false_iff_ne]
      intro hcon
      rw [timeStr_inj] at hcon
      omega]
    rw [show (timeStr (bv / 60) (bv % 60) 0 == timeStr (rv / 60) (rv % 60) 0) = true by
      rw [hbR]; exact beq_self_eq_true _]
    rw [show jsLt (timeStr (lv / 60) (lv % 60) 0) (timeStr (av / 60) (av % 60) 0) = true from
      (jsLt_timeStr_iff _ _ _ _ _ _ (by omega) (by omega) (by omega) (by omega) (by omega)
        (by omega)).mpr (by omega)]
    refine Eq.trans (tickEmit_eq_spec _ dm 23 59 59 (by omega) (by omega) (by omega) (by omega)
      (by omega) loopFuel (av / 60) (av % 60) (by omega)
      (Or.inl ⟨by omega, by rw [show loopFuel = 128 from rfl]; omega⟩)) ?_
    unfold specEmission windowStartSpec windowEndSpec
    rw [if_neg (by omega : ¬ lv = av), if_pos hbR]
    rw [show 60 * (av / 60) + av % 60 = av by omega]
  · -- start av, end bv
    have hlvav' : lv < av := by omega
    have hbvrv' : bv < rv := by omega
    rw [show (timeStr (lv / 60) (lv % 60) 0 == timeStr (av / 60) (av % 60) 0) = false by
      rw [beq_eq_false_iff_ne]
      intro hcon
      rw [timeStr_inj] at hcon
      omega]
    rw [show (timeStr (bv / 60) (bv % 60) 0 == timeStr (rv / 60) (rv % 60) 0) = false by
      rw [beq_eq_false_iff_ne]
      intro hcon
      rw [timeStr_inj] at hcon
      omega]
    rw [show jsLt (timeStr (lv / 60) (lv % 60) 0) (timeStr (av / 60) (av % 60) 0) = true from
      (jsLt_timeStr_iff _ _ _ _ _ _ (by omega) (by omega) (by omega) (by omega) (by omega)
        (by omega)).mpr (by omega)]
    rw [show jsLt (timeStr (bv / 60) (bv % 60) 0) (timeStr (rv / 60) (rv % 60) 0) = true from
      (jsLt_timeStr_iff _ _ _ _ _ _ (by omega) (by omega) (by omega) (by omega) (by omega)
        (by omega)).mpr (by omega)]
    refine Eq.trans (tickEmit_eq_spec _ dm (bv / 60) (bv % 60) 0 (by omega) (by omega)
      (by omega) (by omega) (by omega) loopFuel (av / 60) (av % 60) (by omega)
      (Or.inl ⟨by omega, by rw [show loopFuel = 128 from rfl]; omega⟩)) ?_
    unfold specEmission windowStartSpec windowEndSpec
    rw [if_neg (by omega : ¬ lv = av), if_neg hbR]
    rw [show 60 * (av / 60) + av % 60 = av by omega,
      show 60 * (bv / 60) + bv % 60 = bv by omega]

/-- Witness for C1 at the spec's worked example (case `L<a, b<R`):
times 11:30 (invisible), 11:45/14:30/20:00 (visible), 20:15 (invisible). -/
theorem c1_witness :
    inferDayObservations ([(11, 30, false), (11, 45, true), (14, 30, true), (20, 0, true),
        (20, 15, false)].map entryTV) =
      some (specEmission (([(11, 30, false), (11, 45, true), (14, 30, true), (20, 0, true),
          (20, 15, false)].map entryTV).map (fun t => t.time))
        (if ([(11, 30, false), (11, 45, true), (14, 30, true), (20, 0, true),
            (20, 15, false)].map entryTV).any
            (fun t => containsSub ":15:".data t.time.data) then 15 else 30)
        (windowStartSpec 690 705) (windowEndSpec 1215 1200)) :=
  c1_visibility_window_emission _ 690 1215 705 1200 (by decide) (by decide)
    (List.chain'_cons.mpr ⟨by decide, List.chain'_cons.mpr ⟨by decide,
      List.chain'_cons.mpr ⟨by decide, List.chain'_cons.mpr ⟨by decide,
        List.chain'_singleton _⟩⟩⟩⟩)
    (by decide) (by decide) (by decide) (by decide)

/-! ## C5 support: the popup fold computes the lexicographic extremes -/

theorem dtLe_trans {x y z : DT} (h1 : dtLe x y) (h2 : dtLe y z) : dtLe x z := by
  unfold dtLe at *
  omega

theorem popupStep_eq (base : DT) (st : Option DT × Option DT) (a : Obs) :
    popupStep base st a = (prevUpd base st.1 a, nextUpd base st.2 a) := by
  unfold popupStep prevUpd nextUpd
  by_cases h : a.availability = .available <;> simp [h]

theorem popupFold_split (base : DT) :
    ∀ (obs : List Obs) (p n : Option DT),
      obs.foldl (popupStep base) (p, n) =
        (obs.foldl (prevUpd base) p, obs.foldl (nextUpd base) n) := by
  intro obs
  induction obs with
  | nil => intro p n; rfl
  | cons a l ih =>
    intro p n
    rw [List.foldl_cons, List.foldl_cons, List.foldl_cons, popupStep_eq]
    exact ih _ _

theorem prevUpd_none_iff (base : DT) (p : Option DT) (a : Obs) :
    prevUpd base p a = none ↔ (p = none ∧ ¬ availAtOrBefore base a) := by
  unfold prevUpd availAtOrBefore
  by_cases h1 : a.availability = .available
  · by_cases h2 : a.date < base.date ∨ (a.date = base.date ∧ a.time ≤ base.time)
    · cases p with
      | none => simp [h1, h2]
      | some pv =>
        simp [h1, h2]
        split_ifs <;> simp
    · simp [h1, h2]
  · simp [h1]

theorem prevUpd_some_cases (base : DT) (p : Option DT) (a : Obs) (x : DT)
    (hx : prevUpd base p a = some x) :
    p = some x ∨ (availAtOrBefore base a ∧ dtOf a = x) := by
  unfold prevUpd at hx
  unfold availAtOrBefore dtOf
  by_cases h1 : a.availability = .available
  · by_cases h2 : a.date < base.date ∨ (a.date = base.date ∧ a.time ≤ base.time)
    · cases p with
      | none =>
        simp [h1, h2] at hx
        right
        refine ⟨⟨h1, h2⟩, ?_⟩
        rcases x with ⟨xd, xt⟩
        simp_all
      | some pv =>
        simp [h1, h2] at hx
        split_ifs at hx with h3
        · right
          refine ⟨⟨h1, h2⟩, ?_⟩
          rcases x with ⟨xd, xt⟩
          simp_all
        · left
          rcases x with ⟨xd, xt⟩
          simp_all
    · rw [if_pos h1, if_neg h2] at hx
      exact Or.inl hx
  · rw [if_neg h1] at hx
    exact Or.inl hx

theorem prevUpd_mono (base : DT) (p : Option DT) (a : Obs) (y : DT) (hy : p = some y) :
    ∃ z, prevUpd base p a = some z ∧ dtLe y z := by
  subst hy
  unfold prevUpd
  by_cases h1 : a.availability = .available
  · by_cases h2 : a.date < base.date ∨ (a.date = base.date ∧ a.time ≤ base.time)
    · rw [if_pos h1, if_pos h2]
      show ∃ z, (if a.date > y.date ∨ (a.date = y.date ∧ a.time > y.time)
        then some ⟨a.date, a.time⟩ else some y) = some z ∧ dtLe y z
      by_cases h3 : a.date > y.date ∨ (a.date = y.date ∧ a.time > y.time)
      · rw [if_pos h3]
        exact ⟨_, rfl, by unfold dtLe; (try dsimp only); omega⟩
      · rw [if_neg h3]
        exact ⟨y, rfl, by unfold dtLe; (try dsimp only); omega⟩
    · rw [if_pos h1, if_neg h2]
      exact ⟨y, rfl, by unfold dtLe; (try dsimp only); omega⟩
  · rw [if_neg h1]
    exact ⟨y, rfl, by unfold dtLe; (try dsimp only); omega⟩

theorem prevUpd_ub (base : DT) (p : Option DT) (a : Obs) (h : availAtOrBefore base a) :
    ∃ z, prevUpd base p a = some z ∧ dtLe (dtOf a) z := by
  unfold availAtOrBefore at h
  unfold prevUpd dtOf
  rw [if_pos h.1, if_pos h.2]
  cases p with
  | none => exact ⟨_, rfl, by unfold dtLe; (try dsimp only); omega⟩
  | some pv =>
    show ∃ z, (if a.date > pv.date ∨ (a.date = pv.date ∧ a.time > pv.time)
      then some ⟨a.date, a.time⟩ else some pv) = some z ∧ dtLe ⟨a.date, a.time⟩ z
    by_cases h3 : a.date > pv.date ∨ (a.date = pv.date ∧ a.time > pv.time)
    · rw [if_pos h3]
      exact ⟨_, rfl, by unfold dtLe; (try dsimp only); omega⟩
    · rw [if_neg h3]
      refine ⟨pv, rfl, ?_⟩
      unfold dtLe
      dsimp only
      simp only [not_or, not_and, not_lt, gt_iff_lt] at h3
      omega

theorem nextUpd_none_iff (base : DT) (q : Option DT) (a : Obs) :
    nextUpd base q a = none ↔ (q = none ∧ ¬ availAfter base a) := by
  unfold nextUpd availAfter
  by_cases h1 : a.availability = .available
  · by_cases h2 : a.date > base.date ∨ (a.date = base.date ∧ a.time > base.time)
    · cases q with
      | none => simp [h1, h2]
      | some qv =>
        simp [h1, h2]
        split_ifs <;> simp
    · simp [h1, h2]
  · simp [h1]

theorem nextUpd_some_cases (base : DT) (q : Option DT) (a : Obs) (x : DT)
    (hx : nextUpd base q a = some x) :
    q = some x ∨ (availAfter base a ∧ dtOf a = x) := by
  unfold nextUpd at hx
  unfold availAfter dtOf
  by_cases h1 : a.availability = .available
  · by_cases h2 : a.date > base.date ∨ (a.date = base.date ∧ a.time > base.time)
    · cases q with
      | none =>
        simp [h1, h2] at hx
        right
        refine ⟨⟨h1, h2⟩, ?_⟩
        rcases x with ⟨xd, xt⟩
        simp_all
      | some qv =>
        simp [h1, h2] at hx
        split_ifs at hx with h3
        · right
          refine ⟨⟨h1, h2⟩, ?_⟩
          rcases x with ⟨xd, xt⟩
          simp_all
        · left
          rcases x with ⟨xd, xt⟩
          simp_all
    · rw [if_pos h1, if_neg h2] at hx
      exact Or.inl hx
  · rw [if_neg h1] at hx
    exact Or.inl hx

theorem nextUpd_mono (base : DT) (q : Option DT) (a : Obs) (y : DT) (hy : q = some y) :
    ∃ z, nextUpd base q a = some z ∧ dtLe z y := by
  subst hy
  unfold nextUpd
  by_cases h1 : a.availability = .available
  · by_cases h2 : a.date > base.date ∨ (a.date = base.date ∧ a.time > base.time)
    · rw [if_pos h1, if_pos h2]
      show ∃ z, (if a.date < y.date ∨ (a.date = y.date ∧ a.time < y.time)
        then some ⟨a.date, a.time⟩ else some y) = some z ∧ dtLe z y
      by_cases h3 : a.date < y.date ∨ (a.date = y.date ∧ a.time < y.time)
      · rw [if_pos h3]
        exact ⟨_, rfl, by unfold dtLe; (try dsimp only); omega⟩
      · rw [if_neg h3]
        exact ⟨y, rfl, by unfold dtLe; (try dsimp only); omega⟩
    · rw [if_pos h1, if_neg h2]
      exact ⟨y, rfl, by unfold dtLe; (try dsimp only); omega⟩
  · rw [if_neg h1]
    exact ⟨y, rfl, by unfold dtLe; (try dsimp only); omega⟩

theorem nextUpd_lb (base : DT) (q : Option DT) (a : Obs) (h : availAfter base a) :
    ∃ z, nextUpd base q a = some z ∧ dtLe z (dtOf a) := by
  unfold availAfter at h
  unfold nextUpd dtOf
  rw [if_pos h.1, if_pos h.2]
  cases q with
  | none => exact ⟨_, rfl, by unfold dtLe; (try dsimp only); omega⟩
  | some qv =>
    show ∃ z, (if a.date < qv.date ∨ (a.date = qv.date ∧ a.time < qv.time)
      then some ⟨a.date, a.time⟩ else some qv) = some z ∧ dtLe z ⟨a.date, a.time⟩
    by_cases h3 : a.date < qv.date ∨ (a.date = qv.date ∧ a.time < qv.time)
    · rw [if_pos h3]
      exact ⟨_, rfl, by unfold dtLe; (try dsimp only); omega⟩
    · rw [if_neg h3]
      refine ⟨qv, rfl, ?_⟩
      unfold dtLe
      dsimp only
      simp only [not_or, not_and, not_lt] at h3
      omega

theorem foldl_prevUpd_spec (base : DT) :
    ∀ (obs : List Obs) (p : Option DT),
      (obs.foldl (prevUpd base) p = none ↔
        (p = none ∧ ∀ a ∈ obs, ¬ availAtOrBefore base a)) ∧
      (∀ x, obs.foldl (prevUpd base) p = some x →
        (p = some x ∨ ∃ a ∈ obs, availAtOrBefore base a ∧ dtOf a = x) ∧
        (∀ y, p = some y → dtLe y x) ∧
        (∀ a ∈ obs, availAtOrBefore base a → dtLe (dtOf a) x)) := by
  intro obs
  induction obs with
  | nil =>
    intro p
    refine ⟨by simp, ?_⟩
    intro x hx
    exact ⟨Or.inl hx, fun y hy => by rw [hy] at hx; simp at hx; rw [hx]; unfold dtLe; omega,
      by simp⟩
  | cons a l ih =>
    intro p
    rw [List.foldl_cons]
    obtain ⟨ihn, ihs⟩ := ih (prevUpd base p a)
    constructor
    · rw [ihn, prevUpd_none_iff]
      constructor
      · rintro ⟨⟨hp, hna⟩, hl⟩
        exact ⟨hp, by
          intro a' ha'
          rcases List.mem_cons.mp ha' with rfl | ha''
          · exact hna
          · exact hl a' ha''⟩
      · rintro ⟨hp, hall⟩
        exact ⟨⟨hp, hall a (by simp)⟩, fun a' ha' => hall a' (List.mem_cons_of_mem _ ha')⟩
    · intro x hx
      obtain ⟨hatt, hpb, hcb⟩ := ihs x hx
      refine ⟨?_, ?_, ?_⟩
      · rcases hatt with hps | ⟨a', ha', hc', he'⟩
        · rcases prevUpd_some_cases base p a x hps with hpx | ⟨hca, hda⟩
          · exact Or.inl hpx
          · exact Or.inr ⟨a, by simp, hca, hda⟩
        · exact Or.inr ⟨a', List.mem_cons_of_mem _ ha', hc', he'⟩
      · intro y hy
        obtain ⟨z, hz, hyz⟩ := prevUpd_mono base p a y hy
        exact dtLe_trans hyz (hpb z hz)
      · intro a' ha' hc'
        rcases List.mem_cons.mp ha' with rfl | ha''
        · obtain ⟨z, hz, haz⟩ := prevUpd_ub base p a' hc'
          exact dtLe_trans haz (hpb z hz)
        · exact hcb a' ha'' hc'

theorem foldl_nextUpd_spec (base : DT) :
    ∀ (obs : List Obs) (q : Option DT),
      (obs.foldl (nextUpd base) q = none ↔
        (q = none ∧ ∀ a ∈ obs, ¬ availAfter base a)) ∧
      (∀ x, obs.foldl (nextUpd base) q = some x →
        (q = some x ∨ ∃ a ∈ obs, availAfter base a ∧ dtOf a = x) ∧
        (∀ y, q = some y → dtLe x y) ∧
        (∀ a ∈ obs, availAfter base a → dtLe x (dtOf a))) := by
  intro obs
  induction obs with
  | nil =>
    intro q
    refine ⟨by simp, ?_⟩
    intro x hx
    exact ⟨Or.inl hx, fun y hy => by rw [hy] at hx; simp at hx; rw [hx]; unfold dtLe; omega,
      by simp⟩
  | cons a l ih =>
    intro q
    rw [List.foldl_cons]
    obtain ⟨ihn, ihs⟩ := ih (nextUpd base q a)
    constructor
    · rw [ihn, nextUpd_none_iff]
      constructor
      · rintro ⟨⟨hp, hna⟩, hl⟩
        exact ⟨hp, by
          intro a' ha'
          rcases List.mem_cons.mp ha' with rfl | ha''
          · exact hna
          · exact hl a' ha''⟩
      · rintro ⟨hp, hall⟩
        exact ⟨⟨hp, hall a (by simp)⟩, fun a' ha' => hall a' (List.mem_cons_of_mem _ ha')⟩
    · intro x hx
      obtain ⟨hatt, hqb, hcb⟩ := ihs x hx
      refine ⟨?_, ?_, ?_⟩
      · rcases hatt with hqs | ⟨a', ha', hc', he'⟩
        · rcases nextUpd_some_cases base q a x hqs with hqx | ⟨hca, hda⟩
          · exact Or.inl hqx
          · exact Or.inr ⟨a, by simp, hca, hda⟩
        · exact Or.inr ⟨a', List.mem_cons_of_mem _ ha', hc', he'⟩
      · intro y hy
        obtain ⟨z, hz, hzy⟩ := nextUpd_mono base q a y hy
        exact dtLe_trans (hqb z hz) hzy
      · intro a' ha' hc'
        rcases List.mem_cons.mp ha' with rfl | ha''
        · obtain ⟨z, hz, hza⟩ := nextUpd_lb base q a' hc'
          exact dtLe_trans (hqb z hz) hza
        · exact hcb a' ha'' hc'

/-- C5: for any baseline and any stream of popup observations, on the first
page: when both `prevAvailable` — the lexicographically latest available
observation at or before the baseline — and `nextAvailable` — the earliest
strictly after it — exist, exactly one interval record `(prev, next)`
(start inclusive, end exclusive, info unavailable) is emitted; when only
`nextAvailable` exists the interval starts at the baseline itself; when
neither bound exists nothing is emitted. -/
theorem c5_interval_synthesis (base : DT) (obs : List Obs) :
    (∀ p q, (popupFold base obs).1 = some p → (popupFold base obs).2 = some q →
      popupIntervals base (popupFold base obs).1 (popupFold base obs).2 true = [(p, q)] ∧
      (∃ a ∈ obs, availAtOrBefore base a ∧ dtOf a = p) ∧
      (∀ a ∈ obs, availAtOrBefore base a → dtLe (dtOf a) p) ∧
      (∃ a ∈ obs, availAfter base a ∧ dtOf a = q) ∧
      (∀ a ∈ obs, availAfter base a → dtLe q (dtOf a))) ∧
    ((popupFold base obs).1 = none → ∀ q, (popupFold base obs).2 = some q →
      popupIntervals base (popupFold base obs).1 (popupFold base obs).2 true = [(base, q)] ∧
      (∀ a ∈ obs, ¬ availAtOrBefore base a) ∧
      (∃ a ∈ obs, availAfter base a ∧ dtOf a = q) ∧
      (∀ a ∈ obs, availAfter base a → dtLe q (dtOf a))) ∧
    ((popupFold base obs).2 = none →
      popupIntervals base (popupFold base obs).1 (popupFold base obs).2 true = [] ∧
      (∀ a ∈ obs, ¬ availAfter base a)) := by
  have hsplit : popupFold base obs =
      (obs.foldl (prevUpd base) none, obs.foldl (nextUpd base) none) :=
    popupFold_split base obs none none
  obtain ⟨hpn, hps⟩ := foldl_prevUpd_spec base obs none
  obtain ⟨hqn, hqs⟩ := foldl_nextUpd_spec base obs none
  refine ⟨?_, ?_, ?_⟩
  · intro p q hp hq
    have hp' : obs.foldl (prevUpd base) none = some p := by rw [hsplit] at hp; exact hp
    have hq' : obs.foldl (nextUpd base) none = some q := by rw [hsplit] at hq; exact hq
    obtain ⟨hatt, _, hub⟩ := hps p hp'
    obtain ⟨hatt', _, hlb⟩ := hqs q hq'
    refine ⟨?_, ?_, hub, ?_, hlb⟩
    · rw [hp, hq]
      unfold popupIntervals
      simp
    · rcases hatt with hcon | h
      · exact absurd hcon (by simp)
      · exact h
    · rcases hatt' with hcon | h
      · exact absurd hcon (by simp)
      · exact h
  · intro hp q hq
    have hp' : obs.foldl (prevUpd base) none = none := by rw [hsplit] at hp; exact hp
    have hq' : obs.foldl (nextUpd base) none = some q := by rw [hsplit] at hq; exact hq
    obtain ⟨hatt', _, hlb⟩ := hqs q hq'
    refine ⟨?_, (hpn.mp hp').2, ?_, hlb⟩
    · rw [hp, hq]
      unfold popupIntervals
      simp
    · rcases hatt' with hcon | h
      · exact absurd hcon (by simp)
      · exact h
  · intro hq
    have hq' : obs.foldl (nextUpd base) none = none := by rw [hsplit] at hq; exact hq
    refine ⟨?_, (hqn.mp hq').2⟩
    rw [hq]
    unfold popupIntervals
    rcases (popupFold base obs).1 with _ | p <;> simp

/-- Witness for C5: one available slot the day before the baseline and one
the day after; both bounds exist and exactly one interval is emitted. -/
theorem c5_witness :
    popupIntervals ⟨100, 50⟩
        (popupFold ⟨100, 50⟩ [⟨99, 10, .available⟩, ⟨101, 20, .available⟩]).1
        (popupFold ⟨100, 50⟩ [⟨99, 10, .available⟩, ⟨101, 20, .available⟩]).2 true =
      [(⟨99, 10⟩, ⟨101, 20⟩)] ∧
    (∃ a ∈ [(⟨99, 10, .available⟩ : Obs), ⟨101, 20, .available⟩],
      availAtOrBefore ⟨100, 50⟩ a ∧ dtOf a = ⟨99, 10⟩) ∧
    (∀ a ∈ [(⟨99, 10, .available⟩ : Obs), ⟨101, 20, .available⟩],
      availAtOrBefore ⟨100, 50⟩ a → dtLe (dtOf a) ⟨99, 10⟩) ∧
    (∃ a ∈ [(⟨99, 10, .available⟩ : Obs), ⟨101, 20, .available⟩],
      availAfter ⟨100, 50⟩ a ∧ dtOf a = ⟨101, 20⟩) ∧
    (∀ a ∈ [(⟨99, 10, .available⟩ : Obs), ⟨101, 20, .available⟩],
      availAfter ⟨100, 50⟩ a → dtLe ⟨101, 20⟩ (dtOf a)) :=
  (c5_interval_synthesis ⟨100, 50⟩ [⟨99, 10, .available⟩, ⟨101, 20, .available⟩]).1
    ⟨99, 10⟩ ⟨101, 20⟩ (by decide) (by decide)

/-! ## Grid engine support: timestamps, null runs, fills -/

theorem obsKey_mkObs (av : Availability) (t : Int) : obsKey (mkObs av t) = t := by
  unfold obsKey mkObs msPerDay
  dsimp only
  omega

theorem mkObs_time_bounds (av : Availability) (t : Int) :
    0 ≤ (mkObs av t).time ∧ (mkObs av t).time < msPerDay := by
  unfold mkObs msPerDay
  dsimp only
  constructor <;> omega

theorem obsLt_iff_key (x y : Obs) (hx : 0 ≤ x.time ∧ x.time < msPerDay)
    (hy : 0 ≤ y.time ∧ y.time < msPerDay) : obsLt x y ↔ obsKey x < obsKey y := by
  unfold obsLt obsKey
  unfold msPerDay at *
  constructor <;> intro h
  · rcases h with h | ⟨h1, h2⟩
    · nlinarith [hx.1, hx.2, hy.1, hy.2]
    · rw [h1]
      omega
  · by_contra hc
    unfold obsLt at hc
    push_neg at hc
    rcases lt_trichotomy x.date y.date with hd | hd | hd
    · exact absurd (Or.inl hd) (by push_neg; exact ⟨by omega, by
        intro he; exact absurd (hc.2 he) (by omega)⟩)
    · have := hc.2 hd
      rw [hd] at h
      omega
    · nlinarith [hx.1, hx.2, hy.1, hy.2]

theorem countLeadingNone_le_length : ∀ l : List (Option Int), countLeadingNone l ≤ l.length
  | [] => by simp [countLeadingNone]
  | none :: l => by
    rw [countLeadingNone]
    have := countLeadingNone_le_length l
    simp
    omega
  | some _ :: _ => by
    rw [countLeadingNone]
    omega

theorem countLeadingNone_nones : ∀ (l : List (Option Int)) (q : Nat),
    q < countLeadingNone l → l.getD q none = none
  | [], q => by simp [countLeadingNone]
  | none :: l, 0 => by simp
  | none :: l, q+1 => by
    rw [countLeadingNone]
    intro hq
    have := countLeadingNone_nones l q (by omega)
    simpa using this
  | some _ :: _, q => by
    rw [countLeadingNone]
    omega

theorem countLeadingNone_known : ∀ l : List (Option Int),
    countLeadingNone l < l.length → l.getD (countLeadingNone l) none ≠ none
  | [] => by simp [countLeadingNone]
  | none :: l => by
    rw [countLeadingNone]
    intro h
    have := countLeadingNone_known l (by simpa using h)
    simpa using this
  | some v :: l => by
    rw [countLeadingNone]
    intro _
    simp

theorem countLeadingNone_zero_of_known : ∀ (l : List (Option Int)) (v : Int),
    l.getD 0 none = some v → countLeadingNone l = 0
  | [], v => by simp
  | none :: l, v => by simp
  | some _ :: _, v => by
    intro _
    rfl

theorem countLeadingNone_le_of_known : ∀ (l : List (Option Int)) (q : Nat) (v : Int),
    l.getD q none = some v → countLeadingNone l ≤ q
  | [], q, v => by simp [countLeadingNone]
  | none :: l, 0, v => by simp
  | none :: l, q+1, v => by
    rw [countLeadingNone]
    intro h
    have := countLeadingNone_le_of_known l q v (by simpa using h)
    omega
  | some _ :: _, q, v => by
    rw [countLeadingNone]
    omega

theorem countLeadingNone_replicate (k : Nat) (v : Int) (l : List (Option Int)) :
    countLeadingNone (List.replicate k none ++ some v :: l) = k := by
  induction k with
  | zero => rfl
  | succ n ih =>
    rw [List.replicate_succ, List.cons_append, countLeadingNone, ih]

theorem getD_drop (l : List (Option Int)) (i q : Nat) :
    (l.drop i).getD q none = l.getD (i + q) none := by
  rw [List.getD_eq_getElem?_getD, List.getD_eq_getElem?_getD, List.getElem?_drop]

theorem nextKnown_ge (ts : List (Option Int)) (i : Nat) : i ≤ nextKnown ts i := by
  unfold nextKnown
  omega

theorem nextKnown_le_length (ts : List (Option Int)) (i : Nat) (hi : i ≤ ts.length) :
    nextKnown ts i ≤ ts.length := by
  unfold nextKnown
  have h1 := countLeadingNone_le_length (ts.drop i)
  rw [List.length_drop] at h1
  omega

theorem nextKnown_eq_self (ts : List (Option Int)) (i : Nat) (v : Int)
    (hv : ts.getD i none = some v) : nextKnown ts i = i := by
  unfold nextKnown
  have h0 : (ts.drop i).getD 0 none = some v := by
    rw [getD_drop]
    simpa using hv
  rw [countLeadingNone_zero_of_known _ v h0]
  omega

theorem nextKnown_gt (ts : List (Option Int)) (i : Nat) (hnone : ts.getD i none = none)
    (hi : i < ts.length) : i < nextKnown ts i := by
  unfold nextKnown
  rcases hd : ts.drop i with _ | ⟨x, l⟩
  · have : ts.length ≤ i := by
      have := congrArg List.length hd
      rw [List.length_drop] at this
      simp at this
      omega
    omega
  · have hx : x = none := by
      have hgd : (ts.drop i).getD 0 none = ts.getD i none := by
        rw [getD_drop]
        rfl
      rw [hd, hnone] at hgd
      simpa using hgd
    rw [hx, countLeadingNone]
    omega

theorem nextKnown_nones (ts : List (Option Int)) (i q : Nat)
    (h1 : i ≤ q) (h2 : q < nextKnown ts i) : ts.getD q none = none := by
  unfold nextKnown at h2
  have := countLeadingNone_nones (ts.drop i) (q - i) (by omega)
  rw [getD_drop] at this
  rw [show i + (q - i) = q by omega] at this
  exact this

theorem nextKnown_known (ts : List (Option Int)) (i : Nat)
    (h : nextKnown ts i < ts.length) : ts.getD (nextKnown ts i) none ≠ none := by
  unfold nextKnown at *
  have hlen : countLeadingNone (ts.drop i) < (ts.drop i).length := by
    rw [List.length_drop]
    omega
  have := countLeadingNone_known (ts.drop i) hlen
  rw [getD_drop] at this
  exact this

theorem nextKnown_le_of_known (ts : List (Option Int)) (i q : Nat) (v : Int)
    (h1 : i ≤ q) (hv : ts.getD q none = some v) : nextKnown ts i ≤ q := by
  unfold nextKnown
  have : (ts.drop i).getD (q - i) none = some v := by
    rw [getD_drop]
    rw [show i + (q - i) = q by omega]
    exact hv
  have := countLeadingNone_le_of_known (ts.drop i) (q - i) v this
  omega

theorem fillBack_eq (dm : Int) : ∀ (k : Nat) (v : Int),
    fillBack dm v k = (List.range k).map (fun i : Nat => v - ((i : Int) + 1) * dm) := by
  intro k
  induction k with
  | zero => intro v; rfl
  | succ n ih =>
    intro v
    rw [fillBack, List.range_succ_eq_map, List.map_cons, List.map_map, ih (v - dm)]
    congr 1
    · push_cast
      ring
    · apply List.map_congr_left
      intro i _
      simp only [Function.comp_apply, Nat.succ_eq_add_one]
      push_cast
      ring

theorem fillUp_eq (dm : Int) : ∀ (k : Nat) (v : Int),
    fillUp dm v k = (List.range k).map (fun i : Nat => v + ((i : Int) + 1) * dm) := by
  intro k
  induction k with
  | zero => intro v; rfl
  | succ n ih =>
    intro v
    rw [fillUp, List.range_succ_eq_map, List.map_cons, List.map_map, ih (v + dm)]
    congr 1
    · push_cast
      ring
    · apply List.map_congr_left
      intro i _
      simp only [Function.comp_apply, Nat.succ_eq_add_one]
      push_cast
      ring

theorem fillFwdF_mem (dm e : Int) (hdm : 0 ≤ dm) : ∀ (fuel : Nat) (cur x : Int),
    x ∈ fillFwdF dm e fuel cur → cur ≤ x ∧ x < e := by
  intro fuel
  induction fuel with
  | zero =>
    intro cur x hx
    simp [fillFwdF] at hx
  | succ f ih =>
    intro cur x hx
    rw [fillFwdF] at hx
    by_cases hc : cur < e
    · rw [if_pos hc] at hx
      rcases List.mem_cons.mp hx with rfl | hx'
      · omega
      · have := ih (cur + dm) x hx'
        omega
    · rw [if_neg hc] at hx
      simp at hx

theorem fillFwdF_pairwise (dm e : Int) (hdm : 0 < dm) : ∀ (fuel : Nat) (cur : Int),
    List.Pairwise (· < ·) (fillFwdF dm e fuel cur) := by
  intro fuel
  induction fuel with
  | zero => intro cur; simp [fillFwdF]
  | succ f ih =>
    intro cur
    rw [fillFwdF]
    by_cases hc : cur < e
    · rw [if_pos hc]
      rw [List.pairwise_cons]
      refine ⟨?_, ih (cur + dm)⟩
      intro x hx
      have := fillFwdF_mem dm e (by omega) f (cur + dm) x hx
      omega
    · rw [if_neg hc]
      simp

theorem fillUp_mem (dm : Int) (k : Nat) (v x : Int) (hdm : 0 < dm)
    (hx : x ∈ fillUp dm v k) : v < x ∧ x ≤ v + (k : Int) * dm := by
  rw [fillUp_eq] at hx
  obtain ⟨i, hi, rfl⟩ := List.mem_map.mp hx
  have hik : i < k := List.mem_range.mp hi
  have h1 : (1 : Int) * dm ≤ ((i : Int) + 1) * dm := by
    apply mul_le_mul_of_nonneg_right _ (by omega)
    omega
  have h2 : ((i : Int) + 1) * dm ≤ (k : Int) * dm := by
    apply mul_le_mul_of_nonneg_right _ (by omega)
    omega
  omega

theorem fillUp_pairwise (dm : Int) (hdm : 0 < dm) (v : Int) (k : Nat) :
    List.Pairwise (· < ·) (fillUp dm v k) := by
  rw [fillUp_eq]
  refine List.Pairwise.map _ ?_ (List.pairwise_lt_range k)
  intro a b hab
  have hc : ((a : Int) + 1) * dm < ((b : Int) + 1) * dm := by
    apply mul_lt_mul_of_pos_right _ hdm
    exact_mod_cast Nat.add_lt_add_right hab 1
  omega

theorem fillBack_mem (dm : Int) (k : Nat) (v x : Int) (hdm : 0 < dm)
    (hx : x ∈ fillBack dm v k) : x < v := by
  rw [fillBack_eq] at hx
  obtain ⟨i, hi, rfl⟩ := List.mem_map.mp hx
  have h1 : (0 : Int) < ((i : Int) + 1) * dm := by
    apply mul_pos _ hdm
    omega
  omega

theorem fillBack_pairwise_gt (dm : Int) (hdm : 0 < dm) (v : Int) (k : Nat) :
    List.Pairwise (fun x y : Int => y < x) (fillBack dm v k) := by
  rw [fillBack_eq]
  refine List.Pairwise.map _ ?_ (List.pairwise_lt_range k)
  intro a b hab
  have hc : ((a : Int) + 1) * dm < ((b : Int) + 1) * dm := by
    apply mul_lt_mul_of_pos_right _ hdm
    exact_mod_cast Nat.add_lt_add_right hab 1
  omega

/-! ## Branch equations of the availability scan -/

theorem scanAvailF_base (ts : List (Option Int)) (dm : Int) (fuel i : Nat)
    (h : ts.length ≤ i) : scanAvailF ts dm (fuel + 1) i = some [] := by
  rw [scanAvailF, if_neg (by omega : ¬ i < ts.length)]

theorem scanAvailF_avail (ts : List (Option Int)) (dm : Int) (fuel i : Nat) (v : Int)
    (hi : i < ts.length) (hv : ts.getD i none = some v) :
    scanAvailF ts dm (fuel + 1) i =
      (scanAvailF ts dm fuel (i + 1)).map (fun out => mkObs .available v :: out) := by
  rw [scanAvailF, if_pos hi, if_pos (nextKnown_eq_self ts i v hv).symm, hv]

theorem scanAvailF_gap (ts : List (Option Int)) (dm : Int) (fuel i : Nat) (s e : Int)
    (hi : i < ts.length) (h0 : 0 < i) (hnone : ts.getD i none = none)
    (hj : nextKnown ts i < ts.length)
    (hs : ts.getD (i - 1) none = some s) (he : ts.getD (nextKnown ts i) none = some e) :
    scanAvailF ts dm (fuel + 1) i =
      (scanAvailF ts dm fuel (nextKnown ts i)).map
        (fun out => (fillFwdF dm e ((e - s).toNat) (s + dm)).map (mkObs .unavailable) ++ out) := by
  have hgt := nextKnown_gt ts i hnone hi
  rw [scanAvailF, if_pos hi, if_neg (by omega : ¬ i = nextKnown ts i),
    if_pos (⟨h0, hj⟩ : 0 < i ∧ nextKnown ts i < ts.length), hs, he]

theorem scanAvailF_lead (ts : List (Option Int)) (dm : Int) (fuel : Nat) (v : Int)
    (hi : 0 < ts.length) (hnone : ts.getD 0 none = none)
    (hj : nextKnown ts 0 < ts.length) (hv : ts.getD (nextKnown ts 0) none = some v) :
    scanAvailF ts dm (fuel + 1) 0 =
      (scanAvailF ts dm fuel (nextKnown ts 0)).map
        (fun out => (fillBack dm v (nextKnown ts 0 - 0)).map (mkObs .unavailable) ++ out) := by
  have hgt := nextKnown_gt ts 0 hnone hi
  rw [scanAvailF, if_pos hi, if_neg (by omega : ¬ 0 = nextKnown ts 0),
    if_neg (by omega : ¬ (0 < 0 ∧ nextKnown ts 0 < ts.length)), if_pos rfl, if_pos hj, hv]

theorem scanAvailF_trail (ts : List (Option Int)) (dm : Int) (fuel i : Nat) (v : Int)
    (hi : i < ts.length) (h0 : 0 < i) (hnone : ts.getD i none = none)
    (hj : nextKnown ts i = ts.length) (hv : ts.getD (i - 1) none = some v) :
    scanAvailF ts dm (fuel + 1) i =
      (scanAvailF ts dm fuel (nextKnown ts i)).map
        (fun out => (fillUp dm v (ts.length - i)).map (mkObs .unavailable) ++ out) := by
  have hgt := nextKnown_gt ts i hnone hi
  rw [scanAvailF, if_pos hi, if_neg (by omega : ¬ i = nextKnown ts i),
    if_neg (by omega : ¬ (0 < i ∧ nextKnown ts i < ts.length)),
    if_neg (by omega : ¬ i = 0), hv]

/-- Totality on every reachable state: once the scan stands at a position
that is known, or whose predecessor is known, it never reaches the
all-null crash branch and never exhausts sufficient fuel. -/
theorem scanAvailF_isSome (ts : List (Option Int)) (dm : Int) :
    ∀ fuel i, ts.length - i < fuel →
      (i < ts.length → (ts.getD i none ≠ none ∨ (0 < i ∧ ts.getD (i - 1) none ≠ none))) →
      (scanAvailF ts dm fuel i).isSome = true := by
  intro fuel
  induction fuel with
  | zero =>
    intro i h1 _
    omega
  | succ f ih =>
    intro i h1 hInv
    by_cases hi : i < ts.length
    · rcases hx : ts.getD i none with _ | v
      · have h0k : 0 < i ∧ ts.getD (i - 1) none ≠ none := by
          rcases hInv hi with hk | hp
          · exact absurd hx hk
          · exact hp
        obtain ⟨s, hs⟩ : ∃ s, ts.getD (i - 1) none = some s := by
          rcases hy : ts.getD (i - 1) none with _ | s
          · exact absurd hy h0k.2
          · exact ⟨s, rfl⟩
        have hgt := nextKnown_gt ts i hx hi
        by_cases hj : nextKnown ts i < ts.length
        · obtain ⟨e, he⟩ : ∃ e, ts.getD (nextKnown ts i) none = some e := by
            rcases hy : ts.getD (nextKnown ts i) none with _ | e
            · exact absurd hy (nextKnown_known ts i hj)
            · exact ⟨e, rfl⟩
          rw [scanAvailF_gap ts dm f i s e hi h0k.1 hx hj hs he, Option.isSome_map']
          apply ih (nextKnown ts i) (by omega)
          intro _
          left
          rw [he]
          simp
        · have hj' : nextKnown ts i = ts.length := by
            have := nextKnown_le_length ts i (by omega)
            omega
          rw [scanAvailF_trail ts dm f i s hi h0k.1 hx hj' hs, Option.isSome_map']
          apply ih (nextKnown ts i) (by omega)
          intro hcon
          omega
      · rw [scanAvailF_avail ts dm f i v hi hx, Option.isSome_map']
        apply ih (i + 1) (by omega)
        intro _
        right
        refine ⟨by omega, ?_⟩
        rw [show i + 1 - 1 = i by omega, hx]
        simp
    · rw [scanAvailF_base ts dm f i (by omega)]
      rfl

/-! ## Decomposition of the timestamp array -/

theorem drop_eq_getD_cons (ts : List (Option Int)) (i : Nat) (hi : i < ts.length) :
    ts.drop i = ts.getD i none :: ts.drop (i + 1) := by
  rw [List.getD_eq_getElem?_getD, List.getElem?_eq_getElem hi]
  exact (List.getElem_cons_drop ts i hi).symm

theorem filterMap_drop_eq_of_nones (ts : List (Option Int)) :
    ∀ (k i : Nat), (∀ q, i ≤ q → q < i + k → ts.getD q none = none) → i + k ≤ ts.length →
      (ts.drop i).filterMap id = (ts.drop (i + k)).filterMap id := by
  intro k
  induction k with
  | zero =>
    intro i _ _
    rfl
  | succ n ih =>
    intro i hq hlen
    rw [drop_eq_getD_cons ts i (by omega), hq i (by omega) (by omega)]
    rw [List.filterMap_cons]
    have := ih (i + 1) (fun q h1 h2 => hq q (by omega) (by omega)) (by omega)
    rw [show i + 1 + n = i + (n + 1) by omega] at this
    exact this

theorem obsLt_mkObs_iff (a1 a2 : Availability) (t1 t2 : Int) :
    obsLt (mkObs a1 t1) (mkObs a2 t2) ↔ t1 < t2 := by
  rw [obsLt_iff_key _ _ (mkObs_time_bounds a1 t1) (mkObs_time_bounds a2 t2),
    obsKey_mkObs, obsKey_mkObs]

theorem label_ne_empty (d : Int) (l : String) (v : Int) (h : canonElt d l = some v) :
    l ≠ "" := by
  intro he
  subst he
  exact Option.noConfusion h

theorem blankGuard_false_of_mem (arr : List String) (l : String) (hl : l ∈ arr)
    (hne : l ≠ "") : blankGuard arr = false := by
  unfold blankGuard
  have h1 : arr.isEmpty = false := by
    rcases arr with _ | ⟨x, xs⟩
    · simp at hl
    · rfl
  have h2 : arr.any (fun t => t != "") = true := by
    rw [List.any_eq_true]
    exact ⟨l, hl, by simpa using hne⟩
  rw [h1, h2]
  rfl

theorem canonTimestamps_getD_some (d : Int) (arr : List String) (q : Nat) (v : Int)
    (h : (canonTimestamps d arr).getD q none = some v) :
    ∃ l ∈ arr, canonElt d l = some v := by
  unfold canonTimestamps at h
  rw [List.getD_eq_getElem?_getD, List.getElem?_map] at h
  rcases hq : arr[q]? with _ | l
  · rw [hq] at h
    simp at h
  · rw [hq] at h
    simp at h
    obtain ⟨hlt, hget⟩ := List.getElem?_eq_some.mp hq
    exact ⟨l, hget ▸ List.getElem_mem hlt, h⟩

theorem dmOf_pos (arr : List String) : 0 < dmOf arr := by
  unfold dmOf
  split <;> norm_num

theorem dmOf_le (arr : List String) : dmOf arr ≤ 1800000 := by
  unfold dmOf
  split <;> norm_num

/-! ## The scan reaches the trailing fill -/

/-- When position `p` holds the last known timestamp and everything after
it is `null`, the scan's output from any reachable state at or before `p`
ends with the trailing forward fill from that timestamp. -/
theorem scanAvailF_suffix (ts : List (Option Int)) (dm : Int) (p : Nat) (v : Int)
    (hp : p < ts.length) (hv : ts.getD p none = some v)
    (htrail : ∀ q, p < q → q < ts.length → ts.getD q none = none) :
    ∀ fuel i, ts.length - i < fuel → i ≤ p →
      (i = 0 ∨ ts.getD i none ≠ none ∨ (0 < i ∧ ts.getD (i - 1) none ≠ none)) →
      ∃ pre, scanAvailF ts dm fuel i =
        some (pre ++ (fillUp dm v (ts.length - (p + 1))).map (mkObs .unavailable)) := by
  intro fuel
  induction fuel with
  | zero =>
    intro i h1 _ _
    omega
  | succ f ih =>
    intro i h1 hip hInv
    rcases hx : ts.getD i none with _ | u
    · -- a null position strictly before p
      have hilt : i < p := by
        rcases Nat.lt_or_ge i p with h | h
        · exact h
        · have hie : i = p := by omega
          rw [hie, hv] at hx
          simp at hx
      have hj_le : nextKnown ts i ≤ p := nextKnown_le_of_known ts i p v (by omega) hv
      have hgt := nextKnown_gt ts i hx (by omega)
      have hjlt : nextKnown ts i < ts.length := by omega
      obtain ⟨e, he⟩ : ∃ e, ts.getD (nextKnown ts i) none = some e := by
        rcases hy : ts.getD (nextKnown ts i) none with _ | e
        · exact absurd hy (nextKnown_known ts i hjlt)
        · exact ⟨e, rfl⟩
      obtain ⟨pre, hpre⟩ := ih (nextKnown ts i) (by omega) hj_le
        (Or.inr (Or.inl (by rw [he]; simp)))
      rcases hInv with rfl | hInv'
      · rw [scanAvailF_lead ts dm f e (by omega) hx hjlt he, hpre]
        refine ⟨(fillBack dm e (nextKnown ts 0 - 0)).map (mkObs .unavailable) ++ pre, ?_⟩
        simp
      · rcases hInv' with hk | ⟨h0, hk1⟩
        · exact absurd hx hk
        · obtain ⟨s, hs⟩ : ∃ s, ts.getD (i - 1) none = some s := by
            rcases hy : ts.getD (i - 1) none with _ | s
            · exact absurd hy hk1
            · exact ⟨s, rfl⟩
          rw [scanAvailF_gap ts dm f i s e (by omega) h0 hx hjlt hs he, hpre]
          refine ⟨(fillFwdF dm e ((e - s).toNat) (s + dm)).map (mkObs .unavailable) ++ pre, ?_⟩
          simp
    · -- a known position
      by_cases hipeq : i = p
      · subst hipeq
        have huv : u = v := by
          rw [hv] at hx
          exact (Option.some.inj hx).symm
        subst huv
        rw [scanAvailF_avail ts dm f i u (by omega) hx]
        by_cases hlast : i + 1 < ts.length
        · have hnone1 : ts.getD (i + 1) none = none := htrail (i + 1) (by omega) hlast
          have hj1 : nextKnown ts (i + 1) = ts.length := by
            have hle := nextKnown_le_length ts (i + 1) (by omega)
            by_contra hc
            have hlt : nextKnown ts (i + 1) < ts.length := by omega
            have hknown := nextKnown_known ts (i + 1) hlt
            have hge := nextKnown_ge ts (i + 1)
            exact hknown (htrail _ (by omega) hlt)
          obtain ⟨f2, rfl⟩ : ∃ f2, f = f2 + 1 := ⟨f - 1, by omega⟩
          rw [scanAvailF_trail ts dm f2 (i + 1) u (by omega) (by omega) hnone1 hj1
            (by rw [show i + 1 - 1 = i by omega]; exact hx)]
          rw [hj1]
          obtain ⟨f3, rfl⟩ : ∃ f3, f2 = f3 + 1 := ⟨f2 - 1, by omega⟩
          rw [scanAvailF_base ts dm f3 ts.length (by omega)]
          exact ⟨[mkObs .available u], by simp⟩
        · have hm0 : ts.length - (i + 1) = 0 := by omega
          obtain ⟨f2, rfl⟩ : ∃ f2, f = f2 + 1 := ⟨f - 1, by omega⟩
          rw [scanAvailF_base ts dm f2 (i + 1) (by omega)]
          rw [hm0]
          exact ⟨[mkObs .available u], by simp [fillUp]⟩
      · rw [scanAvailF_avail ts dm f i u (by omega) hx]
        obtain ⟨pre, hpre⟩ := ih (i + 1) (by omega) (by omega)
          (Or.inr (Or.inr ⟨by omega, by rw [show i + 1 - 1 = i by omega, hx]; simp⟩))
        rw [hpre]
        exact ⟨mkObs .available u :: pre, by simp⟩

/-! ## From any reachable state after the leading run, the scan succeeds
with a strictly increasing output -/

theorem scanAvailF_sorted (ts : List (Option Int)) (dm : Int) (hdm : 0 < dm) :
    ∀ fuel i (b : Int), ts.length - i < fuel →
      List.Pairwise (· < ·) ((ts.drop i).filterMap id) →
      (∀ w ∈ (ts.drop i).filterMap id, b < w) →
      (i < ts.length → (ts.getD i none ≠ none ∨ (0 < i ∧ ts.getD (i - 1) none = some b))) →
      ∃ out, scanAvailF ts dm fuel i = some out ∧
        List.Pairwise (fun x y => obsKey x < obsKey y) out ∧
        (∀ o ∈ out, b < obsKey o) ∧
        (∀ o ∈ out, 0 ≤ o.time ∧ o.time < msPerDay) := by
  intro fuel
  induction fuel with
  | zero =>
    intro i b h1 _ _ _
    omega
  | succ f ih =>
    intro i b h1 hpw hgt hInv
    by_cases hi : i < ts.length
    · have hdropi := drop_eq_getD_cons ts i hi
      rcases hx : ts.getD i none with _ | v
      · -- null head: gap or trailing branch
        have hstate : 0 < i ∧ ts.getD (i - 1) none = some b := by
          rcases hInv hi with hk | hp
          · exact absurd hx hk
          · exact hp
        have hjgt := nextKnown_gt ts i hx hi
        have hjle := nextKnown_le_length ts i (by omega)
        have hfm : (ts.drop i).filterMap id = (ts.drop (nextKnown ts i)).filterMap id := by
          have := filterMap_drop_eq_of_nones ts (nextKnown ts i - i) i
            (fun q hq1 hq2 => nextKnown_nones ts i q hq1 (by omega)) (by omega)
          rw [show i + (nextKnown ts i - i) = nextKnown ts i by omega] at this
          exact this
        by_cases hj : nextKnown ts i < ts.length
        · -- interior gap
          obtain ⟨e, he⟩ : ∃ e, ts.getD (nextKnown ts i) none = some e := by
            rcases hy : ts.getD (nextKnown ts i) none with _ | e
            · exact absurd hy (nextKnown_known ts i hj)
            · exact ⟨e, rfl⟩
          have hdropj := drop_eq_getD_cons ts (nextKnown ts i) hj
          have hfmj : (ts.drop (nextKnown ts i)).filterMap id =
              e :: (ts.drop (nextKnown ts i + 1)).filterMap id := by
            rw [hdropj, he]
            simp
          have hbe : b < e := by
            apply hgt
            rw [hfm, hfmj]
            simp
          have hgtj : ∀ w ∈ (ts.drop (nextKnown ts i)).filterMap id, e - 1 < w := by
            intro w hw
            rw [hfmj] at hw
            rcases List.mem_cons.mp hw with rfl | hw'
            · omega
            · have hpwj : List.Pairwise (· < ·)
                  (e :: (ts.drop (nextKnown ts i + 1)).filterMap id) := by
                rw [← hfmj, ← hfm]
                exact hpw
              have := (List.pairwise_cons.mp hpwj).1 w hw'
              omega
          obtain ⟨out', hout', hpw', hgt', hcan'⟩ := ih (nextKnown ts i) (e - 1) (by omega)
            (by rw [← hfm]; exact hpw) hgtj (fun _ => Or.inl (by rw [he]; simp))
          rw [scanAvailF_gap ts dm f i b e hi hstate.1 hx hj hstate.2 he, hout']
          refine ⟨_, rfl, ?_, ?_, ?_⟩
          · rw [List.pairwise_append]
            refine ⟨?_, hpw', ?_⟩
            · refine List.Pairwise.map _ ?_ (fillFwdF_pairwise dm e hdm _ _)
              intro x y hxy
              rw [obsKey_mkObs, obsKey_mkObs]
              exact hxy
            · intro o1 ho1 o2 ho2
              obtain ⟨x, hxmem, rfl⟩ := List.mem_map.mp ho1
              have hxb := fillFwdF_mem dm e (by omega) _ _ x hxmem
              have ho2k := hgt' o2 ho2
              rw [obsKey_mkObs]
              omega
          · intro o ho
            rcases List.mem_append.mp ho with ho1 | ho2
            · obtain ⟨x, hxmem, rfl⟩ := List.mem_map.mp ho1
              have hxb := fillFwdF_mem dm e (by omega) _ _ x hxmem
              rw [obsKey_mkObs]
              omega
            · have := hgt' o ho2
              omega
          · intro o ho
            rcases List.mem_append.mp ho with ho1 | ho2
            · obtain ⟨x, hxmem, rfl⟩ := List.mem_map.mp ho1
              exact mkObs_time_bounds _ _
            · exact hcan' o ho2
        · -- trailing run
          have hj' : nextKnown ts i = ts.length := by omega
          have hgtt : ∀ w ∈ (ts.drop (nextKnown ts i)).filterMap id,
              b + (ts.length - i : Nat) * dm < w := by
            intro w hw
            rw [hj', List.drop_length] at hw
            simp at hw
          obtain ⟨out', hout', hpw', hgt', hcan'⟩ := ih (nextKnown ts i)
            (b + (ts.length - i : Nat) * dm) (by omega)
            (by rw [← hfm]; exact hpw) hgtt (fun hcon => by omega)
          rw [scanAvailF_trail ts dm f i b hi hstate.1 hx hj' hstate.2, hout']
          have hfu : ∀ x ∈ fillUp dm b (ts.length - i), b < x ∧ x ≤ b + (ts.length - i : Nat) * dm :=
            fun x hxm => fillUp_mem dm (ts.length - i) b x hdm hxm
          refine ⟨_, rfl, ?_, ?_, ?_⟩
          · rw [List.pairwise_append]
            refine ⟨?_, hpw', ?_⟩
            · refine List.Pairwise.map _ ?_ (fillUp_pairwise dm hdm b _)
              intro x y hxy
              rw [obsKey_mkObs, obsKey_mkObs]
              exact hxy
            · intro o1 ho1 o2 ho2
              obtain ⟨x, hxmem, rfl⟩ := List.mem_map.mp ho1
              have hxb := hfu x hxmem
              have ho2k := hgt' o2 ho2
              rw [obsKey_mkObs]
              omega
          · intro o ho
            rcases List.mem_append.mp ho with ho1 | ho2
            · obtain ⟨x, hxmem, rfl⟩ := List.mem_map.mp ho1
              have hxb := hfu x hxmem
              rw [obsKey_mkObs]
              omega
            · have h2 := hgt' o ho2
              have hnn : (0 : Int) ≤ (ts.length - i : Nat) * dm := by positivity
              omega
          · intro o ho
            rcases List.mem_append.mp ho with ho1 | ho2
            · obtain ⟨x, hxmem, rfl⟩ := List.mem_map.mp ho1
              exact mkObs_time_bounds _ _
            · exact hcan' o ho2
      · -- known head: emit and advance
        have hfmi : (ts.drop i).filterMap id = v :: (ts.drop (i + 1)).filterMap id := by
          rw [hdropi, hx]
          simp
        have hbv : b < v := by
          apply hgt
          rw [hfmi]
          simp
        have hpwtail := (List.pairwise_cons.mp (by rw [hfmi] at hpw; exact hpw))
        obtain ⟨out', hout', hpw', hgt', hcan'⟩ := ih (i + 1) v (by omega)
          hpwtail.2 hpwtail.1
          (fun _ => Or.inr ⟨by omega, by rw [show i + 1 - 1 = i by omega]; exact hx⟩)
        rw [scanAvailF_avail ts dm f i v hi hx, hout']
        refine ⟨_, rfl, ?_, ?_, ?_⟩
        · rw [List.pairwise_cons]
          refine ⟨?_, hpw'⟩
          intro o ho
          have := hgt' o ho
          rw [obsKey_mkObs]
          omega
        · intro o ho
          rcases List.mem_cons.mp ho with rfl | ho'
          · rw [obsKey_mkObs]
            omega
          · have := hgt' o ho'
            omega
        · intro o ho
          rcases List.mem_cons.mp ho with rfl | ho'
          · exact mkObs_time_bounds _ _
          · exact hcan' o ho'
    · rw [scanAvailF_base ts dm f i (by omega)]
      exact ⟨[], rfl, by simp, by simp, by simp⟩

/-! ## Canonicalization decompositions for edge runs -/

theorem canonElt_blank (d : Int) : canonElt d "" = none := rfl

theorem canonTimestamps_lead_decomp (d : Int) (k : Nat) (lbl : String) (rest : List String) :
    canonTimestamps d (List.replicate k "" ++ lbl :: rest) =
      List.replicate k none ++ canonElt d lbl :: canonTimestamps d rest := by
  unfold canonTimestamps
  rw [List.map_append, List.map_replicate, List.map_cons, canonElt_blank]

theorem canonTimestamps_trail_decomp (d : Int) (front : List String) (lbl : String) (m : Nat) :
    canonTimestamps d (front ++ lbl :: List.replicate m "") =
      canonTimestamps d front ++ canonElt d lbl :: List.replicate m none := by
  unfold canonTimestamps
  rw [List.map_append, List.map_cons, List.map_replicate, canonElt_blank]

theorem getD_replicate_none : ∀ (m r : Nat),
    (List.replicate m (none : Option Int)).getD r none = none
  | 0, _ => by simp
  | _+1, 0 => by simp
  | m+1, r+1 => by
    rw [List.replicate_succ, List.getD_cons_succ]
    exact getD_replicate_none m r

/-- A leading run of `k ≥ 1` blank labels before a parseable one: the
output opens with the `k`-step backfill from the first known timestamp. -/
theorem ptaa_leading (date v : Int) (k : Nat) (lbl : String) (rest : List String)
    (hk : 1 ≤ k) (hv : canonElt date lbl = some v) :
    ∃ tail, parseTimesAndAvailabilities date (List.replicate k "" ++ lbl :: rest) =
      some ((fillBack (dmOf (List.replicate k "" ++ lbl :: rest)) v k).map
        (mkObs .unavailable) ++ tail) := by
  have hbg : blankGuard (List.replicate k "" ++ lbl :: rest) = false :=
    blankGuard_false_of_mem _ lbl (by simp) (label_ne_empty date lbl v hv)
  have hts : canonTimestamps date (List.replicate k "" ++ lbl :: rest) =
      List.replicate k none ++ some v :: canonTimestamps date rest := by
    rw [canonTimestamps_lead_decomp, hv]
  have hlen : (canonTimestamps date (List.replicate k "" ++ lbl :: rest)).length =
      k + (1 + (canonTimestamps date rest).length) := by
    rw [hts]
    simp
    omega
  have hnk : nextKnown (canonTimestamps date (List.replicate k "" ++ lbl :: rest)) 0 = k := by
    unfold nextKnown
    rw [List.drop_zero, hts, countLeadingNone_replicate]
    omega
  have hg0 : (canonTimestamps date (List.replicate k "" ++ lbl :: rest)).getD 0 none = none := by
    apply countLeadingNone_nones
    rw [hts, countLeadingNone_replicate]
    omega
  have hgk : (canonTimestamps date (List.replicate k "" ++ lbl :: rest)).getD k none = some v := by
    rw [hts, List.getD_eq_getElem?_getD, List.getElem?_append_right (by simp)]
    simp
  have hsome := scanAvailF_isSome (canonTimestamps date (List.replicate k "" ++ lbl :: rest))
    (dmOf (List.replicate k "" ++ lbl :: rest))
    ((canonTimestamps date (List.replicate k "" ++ lbl :: rest)).length) k
    (by omega) (fun _ => Or.inl (by rw [hgk]; simp))
  obtain ⟨out, hout⟩ := Option.isSome_iff_exists.mp hsome
  unfold parseTimesAndAvailabilities
  rw [if_neg (by simp [hbg]),
    scanAvailF_lead (canonTimestamps date (List.replicate k "" ++ lbl :: rest))
      (dmOf (List.replicate k "" ++ lbl :: rest))
      ((canonTimestamps date (List.replicate k "" ++ lbl :: rest)).length) v
      (by omega) hg0 (by rw [hnk]; omega) (by rw [hnk]; exact hgk),
    hnk, hout]
  exact ⟨out, by simp⟩

/-- A trailing run of `m ≥ 1` blank labels after a parseable one: the
output closes with the `m`-step forward fill from that known timestamp. -/
theorem ptaa_trailing (date v : Int) (m : Nat) (lbl : String) (front : List String)
    (hm : 1 ≤ m) (hv : canonElt date lbl = some v) :
    ∃ pre, parseTimesAndAvailabilities date (front ++ lbl :: List.replicate m "") =
      some (pre ++ (fillUp (dmOf (front ++ lbl :: List.replicate m "")) v m).map
        (mkObs .unavailable)) := by
  have hbg : blankGuard (front ++ lbl :: List.replicate m "") = false :=
    blankGuard_false_of_mem _ lbl (by simp) (label_ne_empty date lbl v hv)
  have hts : canonTimestamps date (front ++ lbl :: List.replicate m "") =
      canonTimestamps date front ++ some v :: List.replicate m none := by
    rw [canonTimestamps_trail_decomp, hv]
  have hlen : (canonTimestamps date (front ++ lbl :: List.replicate m "")).length =
      (canonTimestamps date front).length + (1 + m) := by
    rw [hts]
    simp
    omega
  have hp : (canonTimestamps date (front ++ lbl :: List.replicate m "")).getD
      (canonTimestamps date front).length none = some v := by
    rw [hts, List.getD_eq_getElem?_getD, List.getElem?_append_right (le_refl _)]
    simp
  have htrail : ∀ q, (canonTimestamps date front).length < q →
      q < (canonTimestamps date (front ++ lbl :: List.replicate m "")).length →
      (canonTimestamps date (front ++ lbl :: List.replicate m "")).getD q none = none := by
    intro q h1 h2
    rw [hlen] at h2
    rw [hts, List.getD_eq_getElem?_getD, List.getElem?_append_right (by omega)]
    obtain ⟨r, hr⟩ : ∃ r, q - (canonTimestamps date front).length = r + 1 :=
      ⟨q - (canonTimestamps date front).length - 1, by omega⟩
    rw [hr, List.getElem?_cons_succ, ← List.getD_eq_getElem?_getD]
    exact getD_replicate_none m r
  obtain ⟨pre, hpre⟩ := scanAvailF_suffix
    (canonTimestamps date (front ++ lbl :: List.replicate m ""))
    (dmOf (front ++ lbl :: List.replicate m ""))
    (canonTimestamps date front).length v (by omega) hp htrail
    ((canonTimestamps date (front ++ lbl :: List.replicate m "")).length + 1) 0
    (by omega) (by omega) (Or.inl rfl)
  have hm' : (canonTimestamps date (front ++ lbl :: List.replicate m "")).length -
      ((canonTimestamps date front).length + 1) = m := by omega
  rw [hm'] at hpre
  refine ⟨pre, ?_⟩
  unfold parseTimesAndAvailabilities
  rw [if_neg (by simp [hbg]), hpre]

/-! ## C4: edge backfill counts and values -/

/-- C4: with `k ≥ 1` leading blank positions before the first parseable
label the engine synthesizes exactly `k` unavailable ticks at
`v − δ, v − 2δ, …, v − kδ` ahead of the rest of the output, and with
`m ≥ 1` trailing blank positions after the last parseable label it appends
exactly `m` unavailable ticks at `v + δ, …, v + mδ`, where `v` is the
known timestamp and `δ` the inferred granularity. -/
theorem c4_edge_backfill (date v : Int) (k m : Nat) (lbl : String)
    (front rest : List String) (hk : 1 ≤ k) (hm : 1 ≤ m)
    (hvf : ∀ l ∈ front, labelValid l = true) (hvr : ∀ l ∈ rest, labelValid l = true)
    (hv : canonElt date lbl = some v) :
    (∃ tail, parseTimesAndAvailabilities date (List.replicate k "" ++ lbl :: rest) =
      some ((List.range k).map (fun i : Nat => mkObs .unavailable
        (v - ((i : Int) + 1) * dmOf (List.replicate k "" ++ lbl :: rest))) ++ tail)) ∧
    (∃ pre, parseTimesAndAvailabilities date (front ++ lbl :: List.replicate m "") =
      some (pre ++ (List.range m).map (fun i : Nat => mkObs .unavailable
        (v + ((i : Int) + 1) * dmOf (front ++ lbl :: List.replicate m ""))))) := by
  constructor
  · obtain ⟨tail, htail⟩ := ptaa_leading date v k lbl rest hk hv
    refine ⟨tail, ?_⟩
    rw [htail, fillBack_eq, List.map_map]
    rfl
  · obtain ⟨pre, hpre⟩ := ptaa_trailing date v m lbl front hm hv
    refine ⟨pre, ?_⟩
    rw [hpre, fillUp_eq, List.map_map]
    rfl

theorem c4_witness :
    canonElt 0 "8:30 PM" = some 73800000 ∧
    ((∃ tail, parseTimesAndAvailabilities 0 (List.replicate 2 "" ++ "8:30 PM" :: []) =
      some ((List.range 2).map (fun i : Nat => mkObs .unavailable
        (73800000 - ((i : Int) + 1) * dmOf (List.replicate 2 "" ++ "8:30 PM" :: []))) ++ tail)) ∧
    (∃ pre, parseTimesAndAvailabilities 0 ([] ++ "8:30 PM" :: List.replicate 1 "") =
      some (pre ++ (List.range 1).map (fun i : Nat => mkObs .unavailable
        (73800000 + ((i : Int) + 1) * dmOf ([] ++ "8:30 PM" :: List.replicate 1 "")))))) :=
  ⟨by decide, c4_edge_backfill 0 73800000 2 1 "8:30 PM" [] [] (by decide) (by decide)
    (by decide) (by decide) (by decide)⟩

/-! ## C3: chronological order of the grid output -/

/-- C3 (counterexample): on `["", "", "8:30 PM"]` the engine's output is
not sorted in strictly increasing chronological order — the two backfilled
ticks before the known `20:30` slot come out time-DECREASING
(`20:00:00` then `19:30:00`), refuting the claim as frozen. -/
theorem c3_counterexample :
    ∃ out, parseTimesAndAvailabilities 0 ["", "", "8:30 PM"] = some out ∧
      ¬ List.Pairwise obsLt out := by
  refine ⟨[mkObs .unavailable 72000000, mkObs .unavailable 70200000,
    mkObs .available 73800000], by decide, ?_⟩
  intro h
  exact absurd ((List.pairwise_cons.mp h).1 (mkObs .unavailable 70200000) (by simp))
    (by decide)

/-- C3 (amended): provided at least one label parses and the known
timestamps are strictly increasing, the output is a leading block of
backfilled unavailable ticks in strictly DECREASING chronological order,
all strictly before the first known timestamp, followed by a tail in
strictly increasing chronological order, all at or after the first known
timestamp.  The frozen claim's "strictly increasing throughout, backfill
included" holds only for the tail; the leading block is reversed. -/
theorem c3_grid_order (date v : Int) (arr : List String)
    (hval : ∀ l ∈ arr, labelValid l = true)
    (hno : countLeadingNone (canonTimestamps date arr) < (canonTimestamps date arr).length)
    (hv : (canonTimestamps date arr).getD
      (countLeadingNone (canonTimestamps date arr)) none = some v)
    (hpw : List.Pairwise (· < ·) ((canonTimestamps date arr).filterMap id)) :
    ∃ tail,
      parseTimesAndAvailabilities date arr =
        some ((fillBack (dmOf arr) v (countLeadingNone (canonTimestamps date arr))).map
          (mkObs .unavailable) ++ tail) ∧
      List.Pairwise obsLt tail ∧
      (∀ o ∈ tail, v ≤ obsKey o) ∧
      List.Pairwise (fun x y => obsLt y x)
        ((fillBack (dmOf arr) v (countLeadingNone (canonTimestamps date arr))).map
          (mkObs .unavailable)) ∧
      (∀ o ∈ (fillBack (dmOf arr) v
          (countLeadingNone (canonTimestamps date arr))).map (mkObs .unavailable),
        obsKey o < v) := by
  obtain ⟨l, hl, hcl⟩ := canonTimestamps_getD_some date arr _ v hv
  have hbg : blankGuard arr = false :=
    blankGuard_false_of_mem arr l hl (label_ne_empty date l v hcl)
  have hdm : (0 : Int) < dmOf arr := dmOf_pos arr
  have hfmdrop : (canonTimestamps date arr).filterMap id =
      ((canonTimestamps date arr).drop (countLeadingNone (canonTimestamps date arr))).filterMap id := by
    have := filterMap_drop_eq_of_nones (canonTimestamps date arr)
      (countLeadingNone (canonTimestamps date arr)) 0
      (fun q _ hq2 => countLeadingNone_nones _ q (by omega)) (by omega)
    rw [List.drop_zero, Nat.zero_add] at this
    exact this
  have hdropj := drop_eq_getD_cons (canonTimestamps date arr)
    (countLeadingNone (canonTimestamps date arr)) hno
  have hfmj : ((canonTimestamps date arr).drop
      (countLeadingNone (canonTimestamps date arr))).filterMap id =
      v :: ((canonTimestamps date arr).drop
        (countLeadingNone (canonTimestamps date arr) + 1)).filterMap id := by
    rw [hdropj, hv]
    simp
  have hpwdropj : List.Pairwise (· < ·) (((canonTimestamps date arr).drop
      (countLeadingNone (canonTimestamps date arr))).filterMap id) := by
    rw [← hfmdrop]
    exact hpw
  have hgtj : ∀ w ∈ ((canonTimestamps date arr).drop
      (countLeadingNone (canonTimestamps date arr))).filterMap id, v - 1 < w := by
    intro w hw
    rw [hfmj] at hw
    rcases List.mem_cons.mp hw with rfl | hw'
    · omega
    · have := (List.pairwise_cons.mp (by rw [← hfmj]; exact hpwdropj)).1 w hw'
      omega
  have hfin : ∀ out, List.Pairwise (fun x y => obsKey x < obsKey y) out →
      (∀ o ∈ out, v - 1 < obsKey o) →
      (∀ o ∈ out, 0 ≤ o.time ∧ o.time < msPerDay) →
      List.Pairwise obsLt out ∧ (∀ o ∈ out, v ≤ obsKey o) := by
    intro out h1 h2 h3
    refine ⟨List.Pairwise.imp_of_mem (fun ha hb hk =>
      (obsLt_iff_key _ _ (h3 _ ha) (h3 _ hb)).mpr hk) h1, fun o ho => ?_⟩
    have := h2 o ho
    omega
  have hbackpw : List.Pairwise (fun x y => obsLt y x)
      ((fillBack (dmOf arr) v (countLeadingNone (canonTimestamps date arr))).map
        (mkObs .unavailable)) := by
    refine List.Pairwise.map _ (fun a b hab => ?_)
      (fillBack_pairwise_gt (dmOf arr) hdm v _)
    exact (obsLt_mkObs_iff _ _ _ _).mpr hab
  have hbacklt : ∀ o ∈ (fillBack (dmOf arr) v
      (countLeadingNone (canonTimestamps date arr))).map (mkObs .unavailable),
      obsKey o < v := by
    intro o ho
    obtain ⟨x, hx, rfl⟩ := List.mem_map.mp ho
    rw [obsKey_mkObs]
    exact fillBack_mem (dmOf arr) _ v x hdm hx
  by_cases hj0 : countLeadingNone (canonTimestamps date arr) = 0
  · rw [hj0] at hv hpwdropj hgtj ⊢
    obtain ⟨out, hout, h1, h2, h3⟩ := scanAvailF_sorted (canonTimestamps date arr)
      (dmOf arr) hdm ((canonTimestamps date arr).length + 1) 0 (v - 1)
      (by omega) hpwdropj hgtj (fun _ => Or.inl (by rw [hv]; simp))
    obtain ⟨hpw', hge'⟩ := hfin out h1 h2 h3
    refine ⟨out, ?_, hpw', hge', by rw [hj0] at hbackpw; exact hbackpw,
      by rw [hj0] at hbacklt; exact hbacklt⟩
    unfold parseTimesAndAvailabilities
    rw [if_neg (by simp [hbg]), hout]
    rfl
  · have hnk : nextKnown (canonTimestamps date arr) 0 =
        countLeadingNone (canonTimestamps date arr) := by
      unfold nextKnown
      rw [List.drop_zero]
      omega
    have hg0 : (canonTimestamps date arr).getD 0 none = none :=
      countLeadingNone_nones _ 0 (by omega)
    obtain ⟨out, hout, h1, h2, h3⟩ := scanAvailF_sorted (canonTimestamps date arr)
      (dmOf arr) hdm ((canonTimestamps date arr).length)
      (countLeadingNone (canonTimestamps date arr)) (v - 1)
      (by omega) hpwdropj hgtj (fun _ => Or.inl (by rw [hv]; simp))
    obtain ⟨hpw', hge'⟩ := hfin out h1 h2 h3
    refine ⟨out, ?_, hpw', hge', hbackpw, hbacklt⟩
    unfold parseTimesAndAvailabilities
    rw [if_neg (by simp [hbg]),
      scanAvailF_lead (canonTimestamps date arr) (dmOf arr)
        ((canonTimestamps date arr).length) v (by omega) hg0
        (by rw [hnk]; omega) (by rw [hnk]; exact hv),
      hnk, hout]
    simp

theorem c3_witness :
    (canonTimestamps 0 ["", "", "8:30 PM"]).getD
      (countLeadingNone (canonTimestamps 0 ["", "", "8:30 PM"])) none = some 73800000 ∧
    (∃ tail,
      parseTimesAndAvailabilities 0 ["", "", "8:30 PM"] =
        some ((fillBack (dmOf ["", "", "8:30 PM"]) 73800000
          (countLeadingNone (canonTimestamps 0 ["", "", "8:30 PM"]))).map
          (mkObs .unavailable) ++ tail) ∧
      List.Pairwise obsLt tail ∧
      (∀ o ∈ tail, 73800000 ≤ obsKey o) ∧
      List.Pairwise (fun x y => obsLt y x)
        ((fillBack (dmOf ["", "", "8:30 PM"]) 73800000
          (countLeadingNone (canonTimestamps 0 ["", "", "8:30 PM"]))).map
          (mkObs .unavailable)) ∧
      (∀ o ∈ (fillBack (dmOf ["", "", "8:30 PM"]) 73800000
          (countLeadingNone (canonTimestamps 0 ["", "", "8:30 PM"]))).map
          (mkObs .unavailable), obsKey o < 73800000)) :=
  ⟨by decide, c3_grid_order 0 73800000 ["", "", "8:30 PM"] (by decide) (by decide) (by decide)
    (by
      have he : (canonTimestamps 0 ["", "", "8:30 PM"]).filterMap id = [(73800000 : Int)] := rfl
      rw [he]
      exact List.pairwise_singleton _ _)⟩


end NaviBench
